import Mathlib

/-!
# ProSailSimulator: batch execution engine

Shallow embedding of `otbProSailSimulator.cxx` (otb-bv, Sen2Agri):
the sample table reader `parse_bv_sample_file`, and the parts of
`ProSailSimulator::DoExecute` that build the noise generators, choose the
number of threads, cut the sample vector into per-thread iterator ranges and
run the `simulator` lambda over each range.

Conventions of the embedding.
* An iterator into a `std::vector` is the signed offset from `begin()`
  (an `Int`): `std::advance` may move it backwards or past `end()`.
* `size_t` values are `Nat` taken modulo `2 ^ 64`, `unsigned` values modulo
  `2 ^ 32`; a `size_t` handed to `std::advance` is converted to the
  iterator's signed `difference_type`.
* Dereferencing an iterator outside the vector is undefined behaviour in the
  source; the embedding reports it as `Fault.outOfBounds`.
* The worker threads write to the shared result vector and, with noise, draw
  from the shared engine `RNG`; the embedding runs them one after the other in
  thread order.
* `std::vector<SimulationType> simus{sampleCount}` holds `sampleCount` default
  constructed (empty) vectors before the threads start.
* `double` is an abstract type `D`; the radiative transfer model
  (`ProSailType::operator()`), the conversions from text to `double` and the
  random draws are parameters, and so is the number `IVNamesEnd` of variables
  of a sample, which is declared outside this file.
* An input file stream is the list of the characters still to be read with
  its `eofbit` and `failbit`.
-/

namespace ProSail

/-! ## Machine integers -/

/-- The number of values of `size_t`. -/
def SIZE_RANGE : Nat := 2 ^ 64

/-- The number of values of `unsigned int`. -/
def UINT_RANGE : Nat := 2 ^ 32

/-- Subtraction of two `size_t` values (wraps around below zero). -/
def sizeSub (a b : Nat) : Nat := (a % SIZE_RANGE + SIZE_RANGE - b % SIZE_RANGE) % SIZE_RANGE

/-- Conversion of a `size_t` to the signed `difference_type` of a vector
iterator, as done by `std::advance(it, n)`. -/
def toDifference (n : Nat) : Int :=
  if n % SIZE_RANGE < 2 ^ 63 then ((n % SIZE_RANGE : Nat) : Int)
  else ((n % SIZE_RANGE : Nat) : Int) - (SIZE_RANGE : Int)

/-- The call `std::advance(it, n)` on a random access iterator, `n` a `size_t`. -/
def advance (it : Int) (n : Nat) : Int := it + toDifference n

/-- Conversion of the `int` returned by `GetParameterInt` to `unsigned`. -/
def toUnsigned (r : Int) : Nat := (r % (UINT_RANGE : Int)).toNat

/-! ## The reader `parse_bv_sample_file` (lines 34-59)

The token read by `ss >> bvValue` is taken to be the maximal run of non-space
characters and converted as a whole by the parameter `strtod`; this is what
the stream does on tokens that are well formed numbers. A field that the
extraction leaves untouched keeps the indeterminate value of the uninitialised
`double bvValue`; it is `none` in the sample. -/

/-- The state of a `std::istream` that matters to the reader: the characters
not yet extracted and the `eofbit` and `failbit` flags. -/
structure IStream where
  buf : List Char
  eofbit : Bool
  failbit : Bool
deriving DecidableEq

/-- The member `good()`: no error flag is set. -/
def IStream.good (s : IStream) : Bool := !s.eofbit && !s.failbit

/-- A freshly opened stream over the given text. -/
def IStream.ofText (text : List Char) : IStream :=
  { buf := text, eofbit := false, failbit := false }

/-- The line feed character, the delimiter of `std::getline`. -/
def newline : Char := Char.ofNat 10

/-- The characters of the buffer up to the first line feed, and what follows
that line feed (`none` when the buffer holds no line feed). -/
def upToNewline : List Char → List Char × Option (List Char)
  | [] => ([], none)
  | ch :: rest =>
    if ch = newline then ([], some rest)
    else ((ch :: (upToNewline rest).1), (upToNewline rest).2)

/-- The call `std::getline(is, line)`: the stream afterwards and the new
content of `line`. -/
def getline (is : IStream) (line : List Char) : IStream × List Char :=
  if is.good then
    match upToNewline is.buf with
    | (text, some rest) => ({ buf := rest, eofbit := false, failbit := false }, text)
    | (text, none) => ({ buf := [], eofbit := true, failbit := text.isEmpty }, text)
  else ({ is with failbit := true }, line)

/-- The classification `std::isspace` of the "C" locale. -/
def isspace (ch : Char) : Bool :=
  ch = Char.ofNat 32 || (9 ≤ ch.toNat && ch.toNat ≤ 13)

/-- The extraction `ss >> bvValue` into a fresh, uninitialised `double`; the
second component is the value of `bvValue` afterwards, `none` when the
extraction left it untouched (the stream was not good, or held nothing but
white space). A token that is not a number sets `failbit` and stores zero. -/
def extractDouble {D : Type} (strtod : List Char → Option D) (zero : D) (ss : IStream) :
    IStream × Option D :=
  if ss.good then
    match ss.buf.dropWhile isspace with
    | [] => ({ buf := [], eofbit := true, failbit := true }, none)
    | ch :: rest =>
      let token := (ch :: rest).takeWhile (fun x => !isspace x)
      let after := (ch :: rest).dropWhile (fun x => !isspace x)
      match strtod token with
      | some v => ({ buf := after, eofbit := after.isEmpty, failbit := false }, some v)
      | none => ({ buf := after, eofbit := after.isEmpty, failbit := true }, some zero)
  else ({ ss with failbit := true }, none)

/-- The `for` loop of lines 47-54 over the `n` variables still to read: the
fields of the sample in the order of the enumeration `IVNames`. -/
def readFields {D : Type} (strtod : List Char → Option D) (zero : D) :
    Nat → IStream → List (Option D)
  | 0, _ => []
  | n + 1, ss =>
    (extractDouble strtod zero ss).2 :: readFields strtod zero n (extractDouble strtod zero ss).1

/-- The `while(sample_file.good())` loop of lines 41-56: as long as the stream
is good, read one line, read `IVNamesEnd` values from it and push the sample.
The first argument bounds the number of iterations. -/
def readSamples {D : Type} (strtod : List Char → Option D) (zero : D) (IVNamesEnd : Nat) :
    Nat → IStream → List Char → Option (List (List (Option D)))
  | 0, _, _ => none
  | fuel + 1, sample_file, line =>
    if sample_file.good then
      let prosailBV := readFields strtod zero IVNamesEnd (IStream.ofText (getline sample_file line).2)
      match readSamples strtod zero IVNamesEnd fuel (getline sample_file line).1
          (getline sample_file line).2 with
      | none => none
      | some bv_vec => some (prosailBV :: bv_vec)
    else some []

/-- The function `parse_bv_sample_file` on an input file stream: the first
`std::getline` takes the header line, the loop reads the samples. Every
iteration but the last one extracts a line feed, so the length of the text
plus two bounds the number of iterations. -/
def parse_bv_sample_file {D : Type} (strtod : List Char → Option D) (zero : D)
    (IVNamesEnd : Nat) (sample_file : IStream) : Option (List (List (Option D))) :=
  readSamples strtod zero IVNamesEnd (sample_file.buf.length + 2)
    (getline sample_file []).1 (getline sample_file []).2

/-! ## Noise configuration (`DoExecute`, lines 209-234) -/

/-- Ways in which building the noise generators throws. -/
inductive ConfigError where
  /-- The `itkGenericExceptionMacro` of line 223; the payload is
  `var_str.size()` and `nbBands`. -/
  | varianceCountMismatch (given nbBands : Nat)
  /-- The exception `boost::bad_lexical_cast` thrown at line 231. -/
  | badLexicalCast (text : String)
deriving DecidableEq

/-- The parameters of a `std::normal_distribution<>`. -/
structure NormalDistribution (D : Type) where
  mean : D
  stddev : D
deriving DecidableEq

/-- The loop of lines 227-233: one generator per string, in order; the first
string that `boost::lexical_cast<double>` rejects aborts the loop. -/
def pushGenerators {D : Type} (lexical_cast : String → Option D) (zero : D) :
    List String → Except ConfigError (List (NormalDistribution D))
  | [] => .ok []
  | s :: rest =>
    match lexical_cast s with
    | none => .error (.badLexicalCast s)
    | some v =>
      match pushGenerators lexical_cast zero rest with
      | .error e => .error e
      | .ok gs => .ok ({ mean := zero, stddev := v } :: gs)

/-- The value of `var_str` after lines 215-226, or the exception of line 223. -/
def resizeVariances (nbBands : Nat) (var_str : List String) :
    Except ConfigError (List String) :=
  match var_str with
  | [v] => .ok (List.replicate nbBands v)
  | _ =>
    if var_str.length ≠ nbBands then
      .error (.varianceCountMismatch var_str.length nbBands)
    else .ok var_str

/-- The vector `noise_generators` built by the `if(add_noise)` block of
lines 212-234 from the string list of the `noisevar` parameter. -/
def buildNoiseGenerators {D : Type} (lexical_cast : String → Option D) (zero : D)
    (nbBands : Nat) (var_str : List String) :
    Except ConfigError (List (NormalDistribution D)) :=
  match resizeVariances nbBands var_str with
  | .error e => .error e
  | .ok vs => pushGenerators lexical_cast zero vs

/-! ## The `simulator` lambda (`DoExecute`, lines 271-291) -/

/-- The collaborators of the worker: `D` stands for `double`, `BV` for
`BVType`, `S` for the state of the `std::mt19937` engine. -/
structure Collaborators (D BV S : Type) where
  /-- The call `prosail()` after `SetRSR`, `SetParameters` and `SetBVs(bv)`:
  the simulated spectrum of one sample. -/
  prosail : BV → List D
  /-- Addition of two `double` values. -/
  add : D → D → D
  /-- The call `noise_generators[i](RNG)`: one draw, and the engine afterwards. -/
  draw : NormalDistribution D → S → D × S

/-- Abnormal ends of the embedded code. -/
inductive Fault where
  /-- An iterator or index was dereferenced outside its vector. -/
  | outOfBounds
  /-- The step budget of the embedding ran out. -/
  | outOfFuel
  /-- Integer division by zero. -/
  | divisionByZero
deriving DecidableEq

/-- Read through a vector iterator. -/
def deref? {α : Type} (v : List α) (it : Int) : Option α :=
  if 0 ≤ it then v[it.toNat]? else none

/-- Write through a vector iterator. -/
def assign? {α : Type} (v : List α) (it : Int) (x : α) : Option (List α) :=
  if 0 ≤ it ∧ it.toNat < v.length then some (v.set it.toNat x) else none

/-- The loop `for(size_t i=0; i<nbBands; i++) (*simu_first)[i] += noise_generators[i](RNG);`
of lines 283-286; `k` is the number of iterations still to run, `i` the counter. -/
def noiseLoop {D BV S : Type} (c : Collaborators D BV S)
    (noise_generators : List (NormalDistribution D)) :
    Nat → Nat → List D → S → Except Fault (List D × S)
  | 0, _, simu, rng => .ok (simu, rng)
  | k + 1, i, simu, rng =>
    match noise_generators[i]?, simu[i]? with
    | some g, some x =>
      let (d, rng) := c.draw g rng
      noiseLoop c noise_generators k (i + 1) (simu.set i (c.add x d)) rng
    | _, _ => .error .outOfBounds

/-- The noise step of lines 281-287 applied to a fresh simulation. -/
def noiseStep {D BV S : Type} (c : Collaborators D BV S) (add_noise : Bool) (nbBands : Nat)
    (noise_generators : List (NormalDistribution D)) (simu : List D) (rng : S) :
    Except Fault (List D × S) :=
  if add_noise then noiseLoop c noise_generators nbBands 0 simu rng else .ok (simu, rng)

/-- The `while(sample_first != sample_last)` loop of the `simulator` lambda
(lines 277-290) over the sample vector `bv_vec`, writing into `simus`. -/
def simulator {D BV S : Type} (c : Collaborators D BV S) (add_noise : Bool) (nbBands : Nat)
    (noise_generators : List (NormalDistribution D)) (bv_vec : List BV) :
    Nat → Int → Int → Int → List (List D) → S → Except Fault (List (List D) × S)
  | 0, _, _, _, _, _ => .error .outOfFuel
  | fuel + 1, sample_first, sample_last, simu_first, simus, rng =>
    if sample_first = sample_last then .ok (simus, rng)
    else
      match deref? bv_vec sample_first with
      | none => .error .outOfBounds
      | some bv =>
        match assign? simus simu_first (c.prosail bv) with
        | none => .error .outOfBounds
        | some _ =>
          match noiseStep c add_noise nbBands noise_generators (c.prosail bv) rng with
          | .error e => .error e
          | .ok (simu, rng) =>
            simulator c add_noise nbBands noise_generators bv_vec fuel
              (sample_first + 1) sample_last (simu_first + 1)
              (simus.set simu_first.toNat simu) rng

/-! ## Thread count selection (`DoExecute`, lines 293-300) -/

/-- The value of `num_threads` after lines 293-300: `hw` is
`std::thread::hardware_concurrency()`, `enabled` is
`IsParameterEnabled("threads")`, `requested` is `GetParameterInt("threads")`. -/
def effectiveThreads (hw : Nat) (enabled : Bool) (requested : Int) : Nat :=
  let num_threads := hw
  let num_requested_threads := if enabled then toUnsigned requested else num_threads
  if num_requested_threads < num_threads then num_requested_threads else num_threads

/-! ## Partitioning loop, threads and write-out (`DoExecute`, lines 306-332) -/

/-- The three iterators handed to one `std::thread(simulator, ...)`. -/
structure Job where
  input_start : Int
  input_end : Int
  output_start : Int
deriving DecidableEq

/-- The body of `for(size_t t=0; t<num_threads; ++t)`; `k` is the number of
iterations still to run, `t` the loop counter. The body only runs when
`num_threads ≥ 1`, so the unsigned `num_threads-1` does not wrap. -/
def partitionLoop (block_size remainder num_threads : Nat) :
    Nat → Nat → Int → Int → List Job
  | 0, _, _, _ => []
  | k + 1, t, input_start, output_start =>
    let input_end := advance input_start block_size
    let input_end :=
      if t = num_threads - 1 then advance input_end (sizeSub remainder 1) else input_end
    { input_start := input_start, input_end := input_end, output_start := output_start } ::
      partitionLoop block_size remainder num_threads k (t + 1) input_end
        (advance output_start block_size)

/-- The block size computed at lines 306 and 308. -/
def blockSize (sampleCount num_threads : Nat) : Nat :=
  if num_threads ≥ sampleCount then sampleCount else sampleCount / num_threads

/-- The jobs, in thread order, that lines 306-325 start for `sampleCount`
samples and `num_threads ≥ 1` threads. -/
def partition (sampleCount num_threads : Nat) : List Job :=
  let block_size := blockSize sampleCount num_threads
  let remainder := sampleCount % num_threads
  partitionLoop block_size remainder num_threads num_threads 0 0 0

/-- The threads started by the partitioning loop, run in thread order. -/
def runWorkers {D BV S : Type} (c : Collaborators D BV S) (add_noise : Bool) (nbBands : Nat)
    (noise_generators : List (NormalDistribution D)) (bv_vec : List BV) :
    List Job → List (List D) → S → Except Fault (List (List D) × S)
  | [], simus, rng => .ok (simus, rng)
  | job :: jobs, simus, rng =>
    match simulator c add_noise nbBands noise_generators bv_vec (bv_vec.length + 1)
        job.input_start job.input_end job.output_start simus rng with
    | .error e => .error e
    | .ok (simus, rng) =>
      runWorkers c add_noise nbBands noise_generators bv_vec jobs simus rng

/-- Lines 266-327 of `DoExecute`: the vector `simus` after all threads have
been joined, for the parsed samples `bv_vec` and `num_threads` threads. -/
def simulate {D BV S : Type} (c : Collaborators D BV S) (add_noise : Bool) (nbBands : Nat)
    (noise_generators : List (NormalDistribution D)) (bv_vec : List BV)
    (num_threads : Nat) (rng : S) : Except Fault (List (List D)) :=
  if num_threads = 0 then .error .divisionByZero
  else
    let sampleCount := bv_vec.length
    let simus : List (List D) := List.replicate sampleCount []
    match runWorkers c add_noise nbBands noise_generators bv_vec
        (partition sampleCount num_threads) simus rng with
    | .error e => .error e
    | .ok (simus, _) => .ok simus

/-- The text written by `WriteSimulation` for one result: every value followed
by a blank; `std::endl` ends the line. -/
def WriteSimulation {D : Type} (shows : D → String) (simu : List D) : String :=
  String.join (simu.map (fun x => shows x ++ " "))

/-- The lines written by the loop of lines 331-332. -/
def writeAll {D : Type} (shows : D → String) (simus : List (List D)) : List String :=
  simus.map (WriteSimulation shows)

/-! ## Descriptions used in the statements -/

/-- The result vector in which the first `m` slots hold the simulations of the
first `m` samples and the other slots are still default constructed. -/
def filledUpTo {D BV S : Type} (c : Collaborators D BV S) (bv_vec : List BV) (m : Nat) :
    List (List D) :=
  (bv_vec.take m).map c.prosail ++ List.replicate (bv_vec.length - m) []

/-- Job number `i` of a run of the loop that starts at counter `t` with the
iterators at `s` and `o`: only the job of the last thread has its end moved by
`remainder - 1`. -/
def loopJob (b r T t : Nat) (s o : Int) (i : Nat) : Job :=
  { input_start := s + i * b
    input_end := s + (i + 1) * b + (if t + i = T - 1 then (r : Int) - 1 else 0)
    output_start := o + i * b }

/-- The job of thread `t` when `1 ≤ T < N`: a block of `N / T` samples, the
last thread running up to offset `N - 1`. -/
def blockJob (N T t : Nat) : Job :=
  if t = T - 1 then
    { input_start := ((t * (N / T) : Nat) : Int)
      input_end := (N : Int) - 1
      output_start := ((t * (N / T) : Nat) : Int) }
  else
    { input_start := ((t * (N / T) : Nat) : Int)
      input_end := (((t + 1) * (N / T) : Nat) : Int)
      output_start := ((t * (N / T) : Nat) : Int) }

/-- The values returned by the calls `noise_generators[0](RNG)`,
`noise_generators[1](RNG)`, ... made in this order on the engine `rng`. -/
def drawSequence {D BV S : Type} (c : Collaborators D BV S) :
    List (NormalDistribution D) → S → List D
  | [], _ => []
  | g :: gs, rng => (c.draw g rng).1 :: drawSequence c gs (c.draw g rng).2

/-- One data line of a sample table: for every field the white space written
before its token and the token itself, then the white space that ends the line. -/
structure DataLine where
  fields : List (List Char × List Char)
  trailing : List Char

/-- The text of the fields of a data line. -/
def fieldsText : List (List Char × List Char) → List Char
  | [] => []
  | f :: fs => f.1 ++ (f.2 ++ fieldsText fs)

/-- The text of a data line, without its line feed. -/
def DataLine.text (l : DataLine) : List Char := fieldsText l.fields ++ l.trailing

/-- White space that can stand inside a line: a space character other than
the line feed. -/
def isBlank (ch : Char) : Bool := isspace ch && !(ch = newline)

/-- The conditions on the fields of a well formed line that the reading loop
relies on. -/
def FieldsOk {D : Type} (strtod : List Char → Option D)
    (fs : List (List Char × List Char)) : Prop :=
  (∀ f ∈ fs, (∀ ch ∈ f.1, isBlank ch = true) ∧ f.2 ≠ [] ∧
    (∀ ch ∈ f.2, isspace ch = false) ∧ (strtod f.2).isSome = true)

/-- A data line with exactly `n` numeric tokens separated by white space. -/
def DataLine.WellFormed {D : Type} (strtod : List Char → Option D) (n : Nat)
    (l : DataLine) : Prop :=
  l.fields.length = n ∧
  (∀ f ∈ l.fields, (∀ ch ∈ f.1, isBlank ch = true) ∧ f.2 ≠ [] ∧
    (∀ ch ∈ f.2, isspace ch = false) ∧ (strtod f.2).isSome = true) ∧
  (∀ f ∈ l.fields.tail, f.1 ≠ []) ∧
  (∀ ch ∈ l.trailing, isBlank ch = true)

/-- The values of the tokens of a data line, in order. -/
def DataLine.values {D : Type} (strtod : List Char → Option D) (l : DataLine) :
    List (Option D) :=
  l.fields.map (fun f => strtod f.2)

/-- The text of the data lines, each one preceded by the line feed that ends
the line before it. -/
def linesText : List DataLine → List Char
  | [] => []
  | l :: ls => newline :: (l.text ++ linesText ls)

/-- The text of a sample table: the header line, the data lines, and a line
feed after the last line when `finalNewline` is set. -/
def tableText (header : List Char) (lines : List DataLine) (finalNewline : Bool) :
    List Char :=
  header ++ (linesText lines ++ (if finalNewline then [newline] else []))

/-! ## Concrete collaborators for the instances -/

/-- A stand-in for `boost::lexical_cast<double>`: it knows three numerals and
rejects every other string. -/
def natCast? (s : String) : Option Nat :=
  if s = "1" then some 1 else if s = "2" then some 2 else if s = "5" then some 5 else none

/-- Collaborators over the naturals for concrete runs: a sample `n` simulates
to `[n, n, n]`, and draw number `s` of a generator with parameter `p` is
`p + s`. -/
def natCollaborators : Collaborators Nat Nat Nat :=
  { prosail := fun n => [n, n, n]
    add := fun x y => x + y
    draw := fun g s => (g.stddev + s, s + 1) }

/-- A stand-in for the conversion of a token to `double`: one decimal digit. -/
def digit? (t : List Char) : Option Nat :=
  match t with
  | [ch] => if ch.isDigit then some (ch.toNat - 48) else none
  | _ => none

/-- A table of one header line and one data line of three digits. -/
def sampleLine : DataLine :=
  { fields := [([], ['1']), ([' '], ['2']), ([' '], ['3'])], trailing := [] }

/-! ## Machine integer lemmas -/

theorem toDifference_of_lt {n : Nat} (h : n < 2 ^ 63) : toDifference n = (n : Int) := by
  have h1 : n % SIZE_RANGE = n := Nat.mod_eq_of_lt (by unfold SIZE_RANGE; omega)
  unfold toDifference
  rw [h1, if_pos h]

theorem toDifference_sizeSub_one {r : Nat} (h : r < 2 ^ 63) :
    toDifference (sizeSub r 1) = (r : Int) - 1 := by
  unfold toDifference sizeSub SIZE_RANGE
  rcases Nat.eq_zero_or_pos r with h0 | h0
  · subst h0; decide
  · have e : (r % 2 ^ 64 + 2 ^ 64 - 1 % 2 ^ 64) % 2 ^ 64 = r - 1 := by omega
    have e2 : (r - 1) % 2 ^ 64 = r - 1 := by omega
    rw [e, e2, if_pos (by omega)]
    omega

theorem advance_of_lt (it : Int) {n : Nat} (h : n < 2 ^ 63) : advance it n = it + n := by
  unfold advance
  rw [toDifference_of_lt h]

theorem toUnsigned_of_nonneg {r : Int} (h0 : 0 ≤ r) (h1 : r < 2 ^ 31) :
    ((toUnsigned r : Nat) : Int) = r := by
  unfold toUnsigned UINT_RANGE
  have : r % ((2 ^ 32 : Nat) : Int) = r := Int.emod_eq_of_lt h0 (by norm_num; omega)
  rw [this]
  exact Int.toNat_of_nonneg h0

/-! ## The reader -/

theorem upToNewline_line (t rest : List Char) (ht : ∀ ch ∈ t, ch ≠ newline) :
    upToNewline (t ++ newline :: rest) = (t, some rest) := by
  induction t with
  | nil => simp [upToNewline]
  | cons ch t ih =>
    have h1 : ch ≠ newline := ht ch (List.mem_cons_self _ _)
    have h2 := ih (fun x hx => ht x (List.mem_cons_of_mem _ hx))
    simp [upToNewline, h1, h2]

theorem upToNewline_last (t : List Char) (ht : ∀ ch ∈ t, ch ≠ newline) :
    upToNewline t = (t, none) := by
  induction t with
  | nil => simp [upToNewline]
  | cons ch t ih =>
    have h1 : ch ≠ newline := ht ch (List.mem_cons_self _ _)
    have h2 := ih (fun x hx => ht x (List.mem_cons_of_mem _ hx))
    simp [upToNewline, h1, h2]

theorem upToNewline_rest_length :
    ∀ (buf rest : List Char), (upToNewline buf).2 = some rest → rest.length < buf.length := by
  intro buf
  induction buf with
  | nil => intro rest h; simp [upToNewline] at h
  | cons ch buf ih =>
    intro rest h
    unfold upToNewline at h
    by_cases hc : ch = newline
    · rw [if_pos hc] at h
      simp only [Option.some.injEq] at h
      subst h
      simp
    · rw [if_neg hc] at h
      have := ih rest h
      simp only [List.length_cons]
      omega

theorem getline_good_length (is : IStream) (line : List Char)
    (h : (getline is line).1.good = true) :
    (getline is line).1.buf.length < is.buf.length := by
  unfold getline at h ⊢
  by_cases hg : is.good = true
  · rw [if_pos hg] at h ⊢
    cases hu : upToNewline is.buf with
    | mk text r =>
      cases r with
      | none => rw [hu] at h; simp [IStream.good] at h
      | some rest =>
        simp only []
        exact upToNewline_rest_length is.buf rest (by rw [hu])
  · rw [if_neg hg] at h
    simp [IStream.good] at h

theorem isspace_newline : isspace newline = true := by decide

theorem ne_newline_of_not_isspace {ch : Char} (h : isspace ch = false) : ch ≠ newline := by
  intro e
  rw [e, isspace_newline] at h
  cases h

theorem ne_newline_of_isBlank {ch : Char} (h : isBlank ch = true) : ch ≠ newline := by
  unfold isBlank at h
  simp at h
  exact h.2

theorem isspace_of_isBlank {ch : Char} (h : isBlank ch = true) : isspace ch = true := by
  unfold isBlank at h
  simp at h
  exact h.1

theorem dropWhile_append_stop {α : Type} (p : α → Bool) (a b : List α)
    (ha : ∀ x ∈ a, p x = true) (hb : ∀ x ∈ b.head?, p x = false) :
    (a ++ b).dropWhile p = b := by
  induction a with
  | nil =>
    cases b with
    | nil => rfl
    | cons x b =>
      have : p x = false := hb x (by simp)
      simp [List.dropWhile, this]
  | cons y a ih =>
    have hy : p y = true := ha y (List.mem_cons_self _ _)
    simp only [List.cons_append, List.dropWhile, hy]
    exact ih (fun x hx => ha x (List.mem_cons_of_mem _ hx))

theorem takeWhile_append_stop {α : Type} (p : α → Bool) (a b : List α)
    (ha : ∀ x ∈ a, p x = true) (hb : ∀ x ∈ b.head?, p x = false) :
    (a ++ b).takeWhile p = a := by
  induction a with
  | nil =>
    cases b with
    | nil => rfl
    | cons x b =>
      have : p x = false := hb x (by simp)
      simp [List.takeWhile, this]
  | cons y a ih =>
    have hy : p y = true := ha y (List.mem_cons_self _ _)
    simp only [List.cons_append, List.takeWhile, hy]
    exact congrArg (List.cons y) (ih (fun x hx => ha x (List.mem_cons_of_mem _ hx)))

/-- A stream at its end yields no value: every field stays untouched. -/
theorem readFields_exhausted {D : Type} (strtod : List Char → Option D) (zero : D) :
    ∀ (n : Nat) (ss : IStream), (ss.good = true → ss.buf = []) →
      readFields strtod zero n ss = List.replicate n none := by
  intro n
  induction n with
  | zero => intro _ _; rfl
  | succ n ih =>
    intro ss h
    have hex : (extractDouble strtod zero ss).2 = none ∧
        (extractDouble strtod zero ss).1.good = false := by
      unfold extractDouble
      by_cases hg : ss.good = true
      · rw [if_pos hg, h hg]
        exact ⟨rfl, rfl⟩
      · rw [if_neg hg]
        refine ⟨rfl, ?_⟩
        simp [IStream.good]
    unfold readFields
    rw [hex.1, ih _ (fun hg => by rw [hex.2] at hg; cases hg), List.replicate_succ]

theorem fieldsText_head {D : Type} (strtod : List Char → Option D)
    (fs : List (List Char × List Char)) (trailing : List Char)
    (hfs : FieldsOk strtod fs) (hsep : ∀ f ∈ fs, f.1 ≠ [])
    (htr : ∀ ch ∈ trailing, isBlank ch = true) :
    ∀ x ∈ (fieldsText fs ++ trailing).head?, (!isspace x) = false := by
  intro x hx
  cases fs with
  | nil =>
    simp only [fieldsText, List.nil_append] at hx
    have : x ∈ trailing := List.mem_of_mem_head? hx
    simp [isspace_of_isBlank (htr x this)]
  | cons f fs =>
    have hne := hsep f (List.mem_cons_self _ _)
    obtain ⟨hb, _, _, _⟩ := hfs f (List.mem_cons_self _ _)
    cases hf1 : f.1 with
    | nil => exact absurd hf1 hne
    | cons c cs =>
      simp only [fieldsText, hf1, List.cons_append, List.head?_cons, Option.mem_def,
        Option.some.injEq] at hx
      subst hx
      have : isBlank c = true := hb c (by rw [hf1]; exact List.mem_cons_self _ _)
      simp [isspace_of_isBlank this]

theorem extractDouble_token {D : Type} (strtod : List Char → Option D) (zero : D)
    (sep tok rest : List Char) (v : D)
    (hsep : ∀ ch ∈ sep, isBlank ch = true) (htok : tok ≠ [])
    (hns : ∀ ch ∈ tok, isspace ch = false) (hv : strtod tok = some v)
    (hrest : ∀ x ∈ rest.head?, (!isspace x) = false) :
    extractDouble strtod zero { buf := sep ++ (tok ++ rest), eofbit := false, failbit := false } =
      ({ buf := rest, eofbit := rest.isEmpty, failbit := false }, some v) := by
  cases tok with
  | nil => exact absurd rfl htok
  | cons c tk =>
    have hc : isspace c = false := hns c (List.mem_cons_self _ _)
    have hdrop : (sep ++ (c :: tk ++ rest)).dropWhile isspace = c :: (tk ++ rest) := by
      apply dropWhile_append_stop
      · intro x hx; exact isspace_of_isBlank (hsep x hx)
      · intro x hx
        simp only [List.cons_append, List.head?_cons, Option.mem_def, Option.some.injEq] at hx
        rw [← hx]; exact hc
    have htake : (c :: (tk ++ rest)).takeWhile (fun x => !isspace x) = c :: tk := by
      have := takeWhile_append_stop (fun x => !isspace x) (c :: tk) rest
        (fun x hx => by simp [hns x hx]) hrest
      simpa using this
    have hdrop2 : (c :: (tk ++ rest)).dropWhile (fun x => !isspace x) = rest := by
      have := dropWhile_append_stop (fun x => !isspace x) (c :: tk) rest
        (fun x hx => by simp [hns x hx]) hrest
      simpa using this
    unfold extractDouble
    simp only [IStream.good, Bool.not_false, Bool.and_self, if_true, hdrop]
    simp only [htake, hdrop2, hv]

theorem readFields_fields {D : Type} (strtod : List Char → Option D) (zero : D)
    (trailing : List Char) (htr : ∀ ch ∈ trailing, isBlank ch = true) :
    ∀ (fs : List (List Char × List Char)) (e : Bool), FieldsOk strtod fs →
      (∀ f ∈ fs.tail, f.1 ≠ []) → (fs ≠ [] → e = false) →
      readFields strtod zero fs.length
        { buf := fieldsText fs ++ trailing, eofbit := e, failbit := false } =
        fs.map (fun f => strtod f.2) := by
  intro fs
  induction fs with
  | nil => intro e _ _ _; rfl
  | cons f fs ih =>
    intro e hok hsep he
    have he0 : e = false := he (by simp)
    subst he0
    obtain ⟨hb, hne, hns, hsome⟩ := hok f (List.mem_cons_self _ _)
    obtain ⟨v, hv⟩ := Option.isSome_iff_exists.1 hsome
    have hok2 : FieldsOk strtod fs := fun g hg => hok g (List.mem_cons_of_mem _ hg)
    have hsep2 : ∀ g ∈ fs, g.1 ≠ [] := fun g hg => hsep g (by simpa using hg)
    have hhead := fieldsText_head strtod fs trailing hok2 hsep2 htr
    have hstep := extractDouble_token strtod zero f.1 f.2 (fieldsText fs ++ trailing) v
      hb hne hns hv hhead
    have hbuf : fieldsText (f :: fs) ++ trailing = f.1 ++ (f.2 ++ (fieldsText fs ++ trailing)) := by
      simp [fieldsText, List.append_assoc]
    simp only [List.length_cons, List.map_cons]
    unfold readFields
    rw [hbuf, hstep, hv]
    congr 1
    apply ih _ hok2 (fun g hg => hsep2 g (List.mem_of_mem_tail hg))
    intro hfs
    cases fs with
    | nil => exact absurd rfl hfs
    | cons g gs =>
      obtain ⟨_, hg2, _, _⟩ := hok2 g (List.mem_cons_self _ _)
      cases hg : g.2 with
      | nil => exact absurd hg hg2
      | cons a as => 
        cases hg1 : g.1 <;> simp [fieldsText, hg, hg1]

theorem fieldsText_no_newline {D : Type} (strtod : List Char → Option D) :
    ∀ (fs : List (List Char × List Char)), FieldsOk strtod fs →
      ∀ ch ∈ fieldsText fs, ch ≠ newline := by
  intro fs
  induction fs with
  | nil => intro _ ch h; simp [fieldsText] at h
  | cons f fs ih =>
    intro hok ch h
    obtain ⟨hb, _, hns, _⟩ := hok f (List.mem_cons_self _ _)
    simp only [fieldsText, List.mem_append] at h
    rcases h with h | h | h
    · exact ne_newline_of_isBlank (hb ch h)
    · exact ne_newline_of_not_isspace (hns ch h)
    · exact ih (fun g hg => hok g (List.mem_cons_of_mem _ hg)) ch h

theorem text_no_newline {D : Type} (strtod : List Char → Option D) (n : Nat) (l : DataLine)
    (h : l.WellFormed strtod n) : ∀ ch ∈ l.text, ch ≠ newline := by
  intro ch hch
  obtain ⟨_, hok, _, htr⟩ := h
  simp only [DataLine.text, List.mem_append] at hch
  rcases hch with hch | hch
  · exact fieldsText_no_newline strtod l.fields hok ch hch
  · exact ne_newline_of_isBlank (htr ch hch)

theorem readFields_line {D : Type} (strtod : List Char → Option D) (zero : D) (n : Nat)
    (l : DataLine) (h : l.WellFormed strtod n) :
    readFields strtod zero n (IStream.ofText l.text) = l.values strtod := by
  obtain ⟨hlen, hok, hsep, htr⟩ := h
  rw [← hlen]
  exact readFields_fields strtod zero l.trailing htr l.fields false hok hsep (fun _ => rfl)

theorem linesText_length : ∀ (ls : List DataLine), ls.length ≤ (linesText ls).length := by
  intro ls
  induction ls with
  | nil => exact Nat.le_refl _
  | cons l ls ih => simp [linesText]; omega

theorem linesText_rest (ls : List DataLine) (final : Bool) :
    (ls = [] ∧ final = false ∧ linesText ls ++ (if final then [newline] else []) = []) ∨
    ∃ buf, linesText ls ++ (if final then [newline] else []) = newline :: buf := by
  cases ls with
  | nil =>
    cases final
    · left; exact ⟨rfl, rfl, rfl⟩
    · right; exact ⟨[], rfl⟩
  | cons l ls => right; exact ⟨_, rfl⟩

theorem readSamples_stopped {D : Type} (strtod : List Char → Option D) (zero : D) (n : Nat)
    (fuel : Nat) (is : IStream) (line : List Char) (h : is.good = false) :
    readSamples strtod zero n (fuel + 1) is line = some [] := by
  unfold readSamples
  simp [h]

theorem readSamples_lines {D : Type} (strtod : List Char → Option D) (zero : D) (n : Nat) :
    ∀ (ls : List DataLine) (final : Bool) (buf : List Char) (fuel : Nat) (line : List Char),
      (∀ l ∈ ls, l.WellFormed strtod n) →
      newline :: buf = linesText ls ++ (if final then [newline] else []) →
      ls.length + 2 ≤ fuel →
      readSamples strtod zero n fuel { buf := buf, eofbit := false, failbit := false } line =
        some (ls.map (DataLine.values strtod) ++
          (if final then [List.replicate n none] else [])) := by
  intro ls
  induction ls with
  | nil =>
    intro final buf fuel line _ hbuf hfuel
    obtain ⟨f, rfl⟩ : ∃ f, fuel = f + 2 := ⟨fuel - 2, by omega⟩
    cases final with
    | false => simp [linesText] at hbuf
    | true =>
      have hb : buf = [] := by simpa [linesText] using hbuf
      subst hb
      have hg : getline { buf := [], eofbit := false, failbit := false } line =
          ({ buf := [], eofbit := true, failbit := true }, []) := by
        simp [getline, IStream.good, upToNewline]
      unfold readSamples
      rw [hg]
      simp only [IStream.good, Bool.not_false, Bool.and_self, if_true]
      rw [readSamples_stopped strtod zero n f _ _ (by rfl)]
      rw [readFields_exhausted strtod zero n _ (fun _ => rfl)]
      rfl
  | cons l ls ih =>
    intro final buf fuel line hwf hbuf hfuel
    obtain ⟨f, rfl⟩ : ∃ f, fuel = f + 1 := ⟨fuel - 1, by simp at hfuel; omega⟩
    have hl := hwf l (List.mem_cons_self _ _)
    have hnn := text_no_newline strtod n l hl
    have hb : buf = l.text ++ (linesText ls ++ (if final then [newline] else [])) := by
      simpa [linesText, List.append_assoc] using hbuf
    subst hb
    rcases linesText_rest ls final with ⟨hls, hfin, hR⟩ | ⟨buf2, hR⟩
    · subst hls hfin
      have hg : getline { buf := l.text ++ [], eofbit := false, failbit := false } line =
          ({ buf := [], eofbit := true, failbit := l.text.isEmpty }, l.text) := by
        simp [getline, IStream.good, upToNewline_last l.text hnn]
      unfold readSamples
      rw [hR, hg]
      simp only [IStream.good, Bool.not_false, Bool.and_self, if_true]
      obtain ⟨f2, rfl⟩ : ∃ f2, f = f2 + 1 := ⟨f - 1, by simp at hfuel; omega⟩
      rw [readSamples_stopped strtod zero n f2 _ _ (by simp [IStream.good])]
      rw [readFields_line strtod zero n l hl]
      rfl
    · have hg : getline { buf := l.text ++ newline :: buf2, eofbit := false, failbit := false }
          line = ({ buf := buf2, eofbit := false, failbit := false }, l.text) := by
        simp [getline, IStream.good, upToNewline_line l.text buf2 hnn]
      unfold readSamples
      rw [hR, hg]
      simp only [IStream.good, Bool.not_false, Bool.and_self, if_true]
      rw [ih final buf2 f l.text (fun x hx => hwf x (List.mem_cons_of_mem _ hx)) hR.symm
        (by simp at hfuel; omega)]
      rw [readFields_line strtod zero n l hl]
      rfl

theorem readSamples_total {D : Type} (strtod : List Char → Option D) (zero : D) (n : Nat) :
    ∀ (fuel : Nat) (is : IStream) (line : List Char), 1 ≤ fuel →
      (is.good = true → is.buf.length + 2 ≤ fuel) →
      ∃ bv_vec, readSamples strtod zero n fuel is line = some bv_vec := by
  intro fuel
  induction fuel with
  | zero => intro _ _ h; omega
  | succ fuel ih =>
    intro is line _ hlen
    unfold readSamples
    by_cases hg : is.good = true
    · rw [if_pos hg]
      have h1 := hlen hg
      obtain ⟨r, hr⟩ := ih (getline is line).1 (getline is line).2 (by omega)
        (fun hg2 => by have := getline_good_length is line hg2; omega)
      rw [hr]
      exact ⟨_, rfl⟩
    · rw [if_neg hg]
      exact ⟨_, rfl⟩

/-- The reader ends on every stream: the step budget it is given is enough. -/
theorem parse_bv_sample_file_total {D : Type} (strtod : List Char → Option D) (zero : D)
    (n : Nat) (sample_file : IStream) :
    ∃ bv_vec, parse_bv_sample_file strtod zero n sample_file = some bv_vec := by
  unfold parse_bv_sample_file
  apply readSamples_total strtod zero n _ _ _ (by omega)
  intro hg
  have := getline_good_length sample_file [] hg
  omega

/-- The reader on a well formed table: one sample per data line, holding the
values of its tokens in order, followed by one more sample with all fields
untouched when the text ends with a line feed. -/
theorem parse_bv_sample_file_table {D : Type} (strtod : List Char → Option D) (zero : D)
    (n : Nat) (header : List Char) (ls : List DataLine) (final : Bool)
    (hh : ∀ ch ∈ header, ch ≠ newline) (hwf : ∀ l ∈ ls, l.WellFormed strtod n) :
    parse_bv_sample_file strtod zero n (IStream.ofText (tableText header ls final)) =
      some (ls.map (DataLine.values strtod) ++
        (if final then [List.replicate n none] else [])) := by
  unfold parse_bv_sample_file IStream.ofText tableText
  rcases linesText_rest ls final with ⟨hls, hfin, hR⟩ | ⟨buf2, hR⟩
  · subst hls hfin
    have hg : getline { buf := header ++ [], eofbit := false, failbit := false } [] =
        ({ buf := [], eofbit := true, failbit := header.isEmpty }, header) := by
      simp [getline, IStream.good, upToNewline_last header hh]
    rw [hR, hg]
    rw [readSamples_stopped strtod zero n _ _ _ (by simp [IStream.good])]
    rfl
  · have hg : getline { buf := header ++ newline :: buf2, eofbit := false, failbit := false }
        [] = ({ buf := buf2, eofbit := false, failbit := false }, header) := by
      simp [getline, IStream.good, upToNewline_line header buf2 hh]
    rw [hR, hg]
    apply readSamples_lines strtod zero n ls final buf2 _ header hwf hR.symm
    have h1 := linesText_length ls
    have h2 := congrArg List.length hR
    simp only [List.length_append, List.length_cons] at h2 ⊢
    have h3 : (if final = true then [newline] else []).length ≤ 1 := by
      cases final <;> simp
    omega

theorem sampleLine_wellFormed : sampleLine.WellFormed digit? 3 := by
  unfold DataLine.WellFormed sampleLine
  decide

/-- C5 as stated fails: on the table `"a b c\n1 2 3\n"` (a header, one data
line of three tokens, ended by a line feed) with three variables the reader
returns two samples, the second with no field set, and not the single sample
of the data line. -/
theorem parse_bv_sample_file_final_newline :
    tableText ['a', ' ', 'b', ' ', 'c'] [sampleLine] true = "a b c\n1 2 3\n".toList ∧
    parse_bv_sample_file digit? 0 3 (IStream.ofText "a b c\n1 2 3\n".toList) =
      some [[some 1, some 2, some 3], [none, none, none]] ∧
    parse_bv_sample_file digit? 0 3 (IStream.ofText "a b c\n1 2 3\n".toList) ≠
      some ([sampleLine].map (DataLine.values digit?)) := by
  decide

/-- C5, amended. For a table made of a header line and `k ≥ 0` data lines, each
holding exactly `n` white space separated tokens that convert to a number:
when the text ends right after the last line, the reader returns exactly the
`k` samples of the data lines, in line order, field `v` of sample `j` being the
value of token `v` of line `j`; when the text ends with a line feed, the reader
returns these `k` samples followed by one more sample in which no field has
been set. In both cases every field of the first `k` samples is set, and the
result does not depend on the header. -/
theorem parse_bv_sample_file_spec {D : Type} (strtod : List Char → Option D) (zero : D)
    (n : Nat) (header : List Char) (ls : List DataLine)
    (hh : ∀ ch ∈ header, ch ≠ newline) (hwf : ∀ l ∈ ls, l.WellFormed strtod n) :
    parse_bv_sample_file strtod zero n (IStream.ofText (tableText header ls false)) =
      some (ls.map (DataLine.values strtod)) ∧
    parse_bv_sample_file strtod zero n (IStream.ofText (tableText header ls true)) =
      some (ls.map (DataLine.values strtod) ++ [List.replicate n none]) ∧
    (ls.map (DataLine.values strtod)).length = ls.length ∧
    (∀ l ∈ ls, (l.values strtod).length = n ∧ ∀ x ∈ l.values strtod, x.isSome = true) := by
  refine ⟨?_, ?_, by simp, ?_⟩
  · have := parse_bv_sample_file_table strtod zero n header ls false hh hwf
    simpa using this
  · have := parse_bv_sample_file_table strtod zero n header ls true hh hwf
    simpa using this
  · intro l hl
    obtain ⟨hlen, hok, _, _⟩ := hwf l hl
    refine ⟨by simp [DataLine.values, hlen], ?_⟩
    intro x hx
    simp only [DataLine.values, List.mem_map] at hx
    obtain ⟨f, hf, rfl⟩ := hx
    exact (hok f hf).2.2.2

/-- Instance of C5 (amended): header `a b c`, one data line `1 2 3`. -/
theorem parse_bv_sample_file_spec_witness :
    ((∀ ch ∈ ['a', ' ', 'b', ' ', 'c'], ch ≠ newline) ∧
      (∀ l ∈ [sampleLine], l.WellFormed digit? 3)) ∧
    parse_bv_sample_file digit? 0 3
        (IStream.ofText (tableText ['a', ' ', 'b', ' ', 'c'] [sampleLine] false)) =
      some ([sampleLine].map (DataLine.values digit?)) ∧
    parse_bv_sample_file digit? 0 3
        (IStream.ofText (tableText ['a', ' ', 'b', ' ', 'c'] [sampleLine] true)) =
      some ([sampleLine].map (DataLine.values digit?) ++ [List.replicate 3 none]) :=
  have hh : ∀ ch ∈ ['a', ' ', 'b', ' ', 'c'], ch ≠ newline := by decide
  have hwf : ∀ l ∈ [sampleLine], l.WellFormed digit? 3 := by
    intro l hl
    rw [List.mem_singleton] at hl
    rw [hl]
    exact sampleLine_wellFormed
  ⟨⟨hh, hwf⟩,
    (parse_bv_sample_file_spec digit? 0 3 ['a', ' ', 'b', ' ', 'c'] [sampleLine] hh hwf).1,
    (parse_bv_sample_file_spec digit? 0 3 ['a', ' ', 'b', ' ', 'c'] [sampleLine] hh hwf).2.1⟩

/-! ## Noise configuration -/

theorem pushGenerators_ok {D : Type} (lexical_cast : String → Option D) (zero : D) :
    ∀ (vs : List String), (∀ s ∈ vs, ∃ v, lexical_cast s = some v) →
      ∃ gs, pushGenerators lexical_cast zero vs = .ok gs ∧ gs.length = vs.length := by
  intro vs
  induction vs with
  | nil => intro _; exact ⟨[], rfl, rfl⟩
  | cons s rest ih =>
    intro h
    obtain ⟨v, hv⟩ := h s (List.mem_cons_self _ _)
    obtain ⟨gs, hgs, hlen⟩ := ih (fun x hx => h x (List.mem_cons_of_mem _ hx))
    refine ⟨{ mean := zero, stddev := v } :: gs, ?_, by simp [hlen]⟩
    unfold pushGenerators
    rw [hv]
    simp only [hgs]

theorem resizeVariances_eq (nbBands : Nat) (var_str : List String) :
    (var_str.length = 1 ∧ ∃ v, var_str = [v] ∧
      resizeVariances nbBands var_str = .ok (List.replicate nbBands v)) ∨
    (var_str.length ≠ 1 ∧ var_str.length = nbBands ∧
      resizeVariances nbBands var_str = .ok var_str) ∨
    (var_str.length ≠ 1 ∧ var_str.length ≠ nbBands ∧
      resizeVariances nbBands var_str =
        .error (.varianceCountMismatch var_str.length nbBands)) := by
  match var_str with
  | [] =>
    by_cases h : nbBands = 0
    · subst h; right; left; exact ⟨by simp, rfl, rfl⟩
    · right; right
      refine ⟨by simp, by simpa using Ne.symm h, ?_⟩
      unfold resizeVariances
      rw [if_pos (by simpa using Ne.symm h)]
  | [v] => left; exact ⟨rfl, v, rfl, rfl⟩
  | a :: b :: rest =>
    by_cases h : (a :: b :: rest).length = nbBands
    · right; left
      refine ⟨by simp, h, ?_⟩
      unfold resizeVariances
      rw [if_neg (by simpa using h)]
    · right; right
      refine ⟨by simp, h, ?_⟩
      unfold resizeVariances
      rw [if_pos h]

/-- C6. For every band count (`nbBands ≥ 1` included) and a list of noise variances that
`boost::lexical_cast<double>` accepts one by one, building the noise
configuration throws exactly when the length of the list is neither `1` nor
`nbBands`; the exception is then the count mismatch of line 223; and when
nothing is thrown the vector `noise_generators` has exactly `nbBands` entries. -/
theorem buildNoiseGenerators_fails_iff {D : Type} (lexical_cast : String → Option D)
    (zero : D) (nbBands : Nat) (var_str : List String)
    (hwf : ∀ s ∈ var_str, ∃ v, lexical_cast s = some v) :
    ((∃ e, buildNoiseGenerators lexical_cast zero nbBands var_str = .error e) ↔
      (var_str.length ≠ 1 ∧ var_str.length ≠ nbBands)) ∧
    (∀ e, buildNoiseGenerators lexical_cast zero nbBands var_str = .error e →
      e = .varianceCountMismatch var_str.length nbBands) ∧
    (∀ gens, buildNoiseGenerators lexical_cast zero nbBands var_str = .ok gens →
      gens.length = nbBands) := by
  rcases resizeVariances_eq nbBands var_str with ⟨h1, v, hv, hr⟩ | ⟨h1, h2, hr⟩ | ⟨h1, h2, hr⟩
  · have hwf2 : ∀ s ∈ List.replicate nbBands v, ∃ x, lexical_cast s = some x := by
      intro s hs
      have : s = v := (List.mem_replicate.1 hs).2
      subst this
      exact hwf s (by rw [hv]; exact List.mem_singleton_self _)
    obtain ⟨gs, hgs, hlen⟩ := pushGenerators_ok lexical_cast zero _ hwf2
    have hb : buildNoiseGenerators lexical_cast zero nbBands var_str = .ok gs := by
      unfold buildNoiseGenerators
      rw [hr]
      exact hgs
    rw [hb]
    refine ⟨⟨fun ⟨e, he⟩ => (by cases he), fun h => absurd h1 h.1⟩, fun e he => (by cases he), ?_⟩
    intro gens hg
    cases hg
    simpa using hlen
  · obtain ⟨gs, hgs, hlen⟩ := pushGenerators_ok lexical_cast zero _ hwf
    have hb : buildNoiseGenerators lexical_cast zero nbBands var_str = .ok gs := by
      unfold buildNoiseGenerators
      rw [hr]
      exact hgs
    rw [hb]
    refine ⟨⟨fun ⟨e, he⟩ => (by cases he), fun h => absurd h2 h.2⟩, fun e he => (by cases he), ?_⟩
    intro gens hg
    cases hg
    omega
  · have hb : buildNoiseGenerators lexical_cast zero nbBands var_str =
        .error (.varianceCountMismatch var_str.length nbBands) := by
      unfold buildNoiseGenerators
      rw [hr]
    rw [hb]
    refine ⟨⟨fun _ => ⟨h1, h2⟩, fun _ => ⟨_, rfl⟩⟩, fun e he => (by cases he; rfl),
      fun gens hg => (by cases hg)⟩

/-- Instance of C6: two variances for three bands are rejected. -/
theorem buildNoiseGenerators_fails_iff_witness :
    (∀ s ∈ ["1", "2"], ∃ v, natCast? s = some v) ∧
    ((∃ e, buildNoiseGenerators natCast? 0 3 ["1", "2"] = .error e) ↔
      (["1", "2"].length ≠ 1 ∧ ["1", "2"].length ≠ 3)) :=
  have hwf : ∀ s ∈ ["1", "2"], ∃ v, natCast? s = some v := by
    intro s hs
    simp only [List.mem_cons, List.mem_singleton, List.not_mem_nil, or_false] at hs
    rcases hs with rfl | rfl
    · exact ⟨1, by decide⟩
    · exact ⟨2, by decide⟩
  ⟨hwf, (buildNoiseGenerators_fails_iff natCast? 0 3 ["1", "2"] hwf).1⟩

/-- C8. Building the noise configuration from the one-element list `[v]`
gives the same outcome as building it from `nbBands` copies of `v`; when
`boost::lexical_cast<double>` accepts `v` as the number `x`, both give
`nbBands` generators with mean `0` and parameter `x`. -/
theorem buildNoiseGenerators_broadcast {D : Type} (lexical_cast : String → Option D)
    (zero : D) (nbBands : Nat) (v : String) :
    buildNoiseGenerators lexical_cast zero nbBands [v] =
      buildNoiseGenerators lexical_cast zero nbBands (List.replicate nbBands v) ∧
    (∀ x, lexical_cast v = some x →
      buildNoiseGenerators lexical_cast zero nbBands [v] =
        .ok (List.replicate nbBands { mean := zero, stddev := x })) := by
  have hres : resizeVariances nbBands (List.replicate nbBands v) =
      .ok (List.replicate nbBands v) := by
    rcases resizeVariances_eq nbBands (List.replicate nbBands v) with
      ⟨_, w, hw, hr⟩ | ⟨_, _, hr⟩ | ⟨_, h2, _⟩
    · rw [hr]
      have hlen : nbBands = 1 := by
        have := congrArg List.length hw
        simpa using this
      subst hlen
      simp only [List.replicate_one] at hw ⊢
      have : v = w := by simpa using hw
      rw [this]
    · exact hr
    · exact absurd (List.length_replicate _ _) h2
  refine ⟨?_, ?_⟩
  · unfold buildNoiseGenerators
    rw [hres]
    rfl
  · intro x hx
    unfold buildNoiseGenerators
    show pushGenerators lexical_cast zero (List.replicate nbBands v) = _
    induction nbBands with
    | zero => rfl
    | succ n ih =>
      rw [List.replicate_succ, List.replicate_succ]
      unfold pushGenerators
      rw [hx]
      have hn : resizeVariances n (List.replicate n v) = .ok (List.replicate n v) := by
        rcases resizeVariances_eq n (List.replicate n v) with
          ⟨_, w, hw, hr⟩ | ⟨_, _, hr⟩ | ⟨_, h2, _⟩
        · rw [hr]
          have hlen : n = 1 := by
            have := congrArg List.length hw
            simpa using this
          subst hlen
          simp only [List.replicate_one] at hw ⊢
          have : v = w := by simpa using hw
          rw [this]
        · exact hr
        · exact absurd (List.length_replicate _ _) h2
      simp only [ih hn]

/-- Instance of C8 at `nbBands = 4`. -/
theorem buildNoiseGenerators_broadcast_witness :
    natCast? "5" = some 5 ∧
    buildNoiseGenerators natCast? 0 4 ["5"] =
      .ok (List.replicate 4 { mean := 0, stddev := 5 }) :=
  ⟨by decide, (buildNoiseGenerators_broadcast natCast? 0 4 "5").2 5 (by decide)⟩

/-! ## The noise step -/

theorem drawSequence_length {D BV S : Type} (c : Collaborators D BV S) :
    ∀ (gens : List (NormalDistribution D)) (rng : S),
      (drawSequence c gens rng).length = gens.length := by
  intro gens
  induction gens with
  | nil => intro _; rfl
  | cons g gs ih => intro rng; simp [drawSequence, ih]

theorem noiseLoop_spec {D BV S : Type} (c : Collaborators D BV S)
    (gens : List (NormalDistribution D)) :
    ∀ (k i : Nat) (simu : List D) (rng : S),
      i + k ≤ gens.length → i + k ≤ simu.length →
      ∃ out rng', noiseLoop c gens k i simu rng = .ok (out, rng') ∧
        out.length = simu.length ∧
        (∀ j, j < i ∨ i + k ≤ j → out[j]? = simu[j]?) ∧
        (∀ j, i ≤ j → j < i + k → ∃ x d, simu[j]? = some x ∧
          (drawSequence c (gens.drop i) rng)[j - i]? = some d ∧
          out[j]? = some (c.add x d)) := by
  intro k
  induction k with
  | zero =>
    intro i simu rng _ _
    exact ⟨simu, rng, rfl, rfl, fun _ _ => rfl, fun j h1 h2 => by omega⟩
  | succ k ih =>
    intro i simu rng hg hs
    have hig : i < gens.length := by omega
    have his : i < simu.length := by omega
    have hdrop : gens.drop i = gens.get ⟨i, hig⟩ :: gens.drop (i + 1) := by
      rw [List.drop_eq_getElem_cons hig]
      rfl
    obtain ⟨out, rng', hrun, hlen, hout, hin⟩ :=
      ih (i + 1) (simu.set i (c.add (simu.get ⟨i, his⟩) (c.draw (gens.get ⟨i, hig⟩) rng).1))
        (c.draw (gens.get ⟨i, hig⟩) rng).2 (by omega) (by simp; omega)
    refine ⟨out, rng', ?_, by simpa using hlen, ?_, ?_⟩
    · unfold noiseLoop
      rw [List.getElem?_eq_getElem hig, List.getElem?_eq_getElem his]
      exact hrun
    · intro j hj
      rw [hout j (by omega), List.getElem?_set_ne (by omega)]
    · intro j h1 h2
      rcases Nat.eq_or_lt_of_le h1 with rfl | hlt
      · refine ⟨simu.get ⟨i, his⟩, (c.draw (gens.get ⟨i, hig⟩) rng).1, ?_, ?_, ?_⟩
        · rw [List.getElem?_eq_getElem his]; rfl
        · rw [hdrop, Nat.sub_self]; simp [drawSequence]
        · rw [hout i (by omega), List.getElem?_set_self his]
      · obtain ⟨x, d, hx, hd, ho⟩ := hin j (by omega) (by omega)
        rw [List.getElem?_set_ne (by omega)] at hx
        refine ⟨x, d, hx, ?_, ho⟩
        rw [hdrop]
        have : j - i = (j - (i + 1)) + 1 := by omega
        rw [this]
        simpa [drawSequence] using hd

/-- C7. For every band count `nbBands` (`nbBands ≥ 1` included), `nbBands`
noise generators and a simulation result `r` of length
`nbBands + 2`, the noise step of the worker ends normally; writing `d` for the
sequence of the `nbBands` values drawn from the generators, the result has the
length of `r`, entry `i` is `r[i] + d[i]` for every `i < nbBands`, and the two
trailing entries (index `nbBands` and `nbBands + 1`) are those of `r`. -/
theorem noiseStep_spec {D BV S : Type} (c : Collaborators D BV S) (nbBands : Nat)
    (gens : List (NormalDistribution D)) (r : List D) (rng : S)
    (hg : gens.length = nbBands) (hr : r.length = nbBands + 2) :
    ∃ out rng', noiseStep c true nbBands gens r rng = .ok (out, rng') ∧
      (drawSequence c gens rng).length = nbBands ∧
      out.length = r.length ∧
      (∀ i, i < nbBands → ∃ x d, r[i]? = some x ∧ (drawSequence c gens rng)[i]? = some d ∧
        out[i]? = some (c.add x d)) ∧
      out[nbBands]? = r[nbBands]? ∧ out[nbBands + 1]? = r[nbBands + 1]? ∧
      (∃ a b, r[nbBands]? = some a ∧ r[nbBands + 1]? = some b) := by
  obtain ⟨out, rng', hrun, hlen, hout, hin⟩ :=
    noiseLoop_spec c gens nbBands 0 r rng (by omega) (by omega)
  refine ⟨out, rng', ?_, ?_, hlen, ?_, hout _ (by omega), hout _ (by omega), ?_⟩
  · unfold noiseStep
    rw [if_pos rfl]
    exact hrun
  · rw [drawSequence_length, hg]
  · intro i hi
    obtain ⟨x, d, hx, hd, ho⟩ := hin i (by omega) (by omega)
    exact ⟨x, d, hx, by simpa using hd, ho⟩
  · exact ⟨r.get ⟨nbBands, by omega⟩, r.get ⟨nbBands + 1, by omega⟩,
      List.getElem?_eq_getElem _, List.getElem?_eq_getElem _⟩

/-- Instance of C7: one band, result `[10, 20, 30]`, one draw of value `100`:
the band becomes `110`, cover and absorption stay `20` and `30`. -/
theorem noiseStep_spec_witness :
    ([({ mean := 0, stddev := 100 } : NormalDistribution Nat)].length = 1 ∧
      [10, 20, 30].length = 1 + 2) ∧
    ∃ out rng', noiseStep natCollaborators true 1 [{ mean := 0, stddev := 100 }]
        [10, 20, 30] 0 = .ok (out, rng') ∧ out.length = [10, 20, 30].length :=
  ⟨by decide,
   match noiseStep_spec natCollaborators 1 [{ mean := 0, stddev := 100 }] [10, 20, 30] 0
      (by decide) (by decide) with
   | ⟨out, rng', h1, _, h3, _⟩ => ⟨out, rng', h1, h3⟩⟩

/-! ## Thread count selection -/

/-- C9 as stated fails: with hardware concurrency `4` and a requested count
of `-1`, the code keeps `4` threads whereas `min(4, -1) = -1`. -/
theorem effectiveThreads_negative_request :
    effectiveThreads 4 true (-1) = 4 ∧
      ((effectiveThreads 4 true (-1) : Nat) : Int) ≠ min (4 : Int) (-1) := by
  decide

/-- C9, amended. The effective thread count is `min(H, R mod 2 ^ 32)` when the
`threads` parameter is enabled (the `int` is converted to `unsigned` before
the comparison) and `H` when it is not; it is never larger than `H`; and for a
requested count `0 ≤ R` in the range of `int` it is `min(H, R)`. -/
theorem effectiveThreads_spec (H : Nat) (R : Int) :
    effectiveThreads H true R = min H (toUnsigned R) ∧
    effectiveThreads H false R = H ∧
    (∀ enabled, effectiveThreads H enabled R ≤ H) ∧
    (0 ≤ R → R < 2 ^ 31 → ((effectiveThreads H true R : Nat) : Int) = min (H : Int) R) := by
  have h1 : effectiveThreads H true R = min H (toUnsigned R) := by
    unfold effectiveThreads
    simp only [if_true]
    split <;> omega
  have h2 : effectiveThreads H false R = H := by
    unfold effectiveThreads
    simp
  refine ⟨h1, h2, ?_, ?_⟩
  · intro enabled
    cases enabled
    · rw [h2]
    · rw [h1]; exact Nat.min_le_left _ _
  · intro h0 hlt
    rw [h1]
    have := toUnsigned_of_nonneg h0 hlt
    omega

/-- Instance of C9 (amended): `8` hardware threads, `3` requested. -/
theorem effectiveThreads_spec_witness :
    ((0 : Int) ≤ 3 ∧ (3 : Int) < 2 ^ 31) ∧
      ((effectiveThreads 8 true 3 : Nat) : Int) = min ((8 : Nat) : Int) 3 :=
  ⟨by decide, (effectiveThreads_spec 8 3).2.2.2 (by decide) (by decide)⟩

/-! ## The worker: step lemmas and step budget -/

theorem simulator_done {D BV S : Type} (c : Collaborators D BV S) (add_noise : Bool)
    (nbBands : Nat) (gens : List (NormalDistribution D)) (bv_vec : List BV) (fuel : Nat)
    (first last out : Int) (simus : List (List D)) (rng : S) (h : first = last) :
    simulator c add_noise nbBands gens bv_vec (fuel + 1) first last out simus rng =
      .ok (simus, rng) := by
  unfold simulator
  rw [if_pos h]

theorem simulator_fault {D BV S : Type} (c : Collaborators D BV S) (add_noise : Bool)
    (nbBands : Nat) (gens : List (NormalDistribution D)) (bv_vec : List BV) (fuel : Nat)
    (first last out : Int) (simus : List (List D)) (rng : S) (h : first ≠ last)
    (hd : deref? bv_vec first = none) :
    simulator c add_noise nbBands gens bv_vec (fuel + 1) first last out simus rng =
      .error .outOfBounds := by
  unfold simulator
  rw [if_neg h, hd]

theorem simulator_step {D BV S : Type} (c : Collaborators D BV S)
    (nbBands : Nat) (gens : List (NormalDistribution D)) (bv_vec : List BV) (fuel : Nat)
    (first last out : Int) (simus : List (List D)) (rng : S) (bv : BV) (h : first ≠ last)
    (hd : deref? bv_vec first = some bv) (ho : 0 ≤ out ∧ out.toNat < simus.length) :
    simulator c false nbBands gens bv_vec (fuel + 1) first last out simus rng =
      simulator c false nbBands gens bv_vec fuel (first + 1) last (out + 1)
        (simus.set out.toNat (c.prosail bv)) rng := by
  conv_lhs => unfold simulator
  rw [if_neg h, hd]
  simp only [assign?, if_pos ho, noiseStep, Bool.false_eq_true, if_false]

theorem noiseLoop_ne_outOfFuel {D BV S : Type} (c : Collaborators D BV S)
    (gens : List (NormalDistribution D)) :
    ∀ (k i : Nat) (simu : List D) (rng : S),
      noiseLoop c gens k i simu rng ≠ .error .outOfFuel := by
  intro k
  induction k with
  | zero => intro i simu rng h; simp [noiseLoop] at h
  | succ k ih =>
    intro i simu rng
    unfold noiseLoop
    split
    · exact ih _ _ _
    · intro h; simp at h

theorem simulator_ne_outOfFuel {D BV S : Type} (c : Collaborators D BV S) (add_noise : Bool)
    (nbBands : Nat) (gens : List (NormalDistribution D)) (bv_vec : List BV) :
    ∀ (fuel : Nat) (first last out : Int) (simus : List (List D)) (rng : S),
      1 ≤ fuel → bv_vec.length < fuel + first.toNat →
      simulator c add_noise nbBands gens bv_vec fuel first last out simus rng ≠
        .error .outOfFuel := by
  intro fuel
  induction fuel with
  | zero =>
    intro first last out simus rng h1 h
    omega
  | succ fuel ih =>
    intro first last out simus rng _ h
    unfold simulator
    split
    · intro h'; simp at h'
    · cases hd : deref? bv_vec first with
      | none => intro h'; simp at h'
      | some bv =>
        have hb : 0 ≤ first ∧ first.toNat < bv_vec.length := by
          unfold deref? at hd
          by_cases h0 : 0 ≤ first
          · rw [if_pos h0] at hd
            exact ⟨h0, (List.getElem?_eq_some_iff.1 hd).1⟩
          · rw [if_neg h0] at hd
            cases hd
        simp only
        split
        · intro h'; simp at h'
        · split
          · rename_i e hn
            intro h'
            have he : e = .outOfFuel := by simpa using h'
            subst he
            unfold noiseStep at hn
            split at hn
            · exact noiseLoop_ne_outOfFuel c gens _ _ _ _ hn
            · simp at hn
          · have : (first + 1).toNat = first.toNat + 1 := by omega
            apply ih
            · omega
            · omega

theorem runWorkers_ne_outOfFuel {D BV S : Type} (c : Collaborators D BV S) (add_noise : Bool)
    (nbBands : Nat) (gens : List (NormalDistribution D)) (bv_vec : List BV) :
    ∀ (jobs : List Job) (simus : List (List D)) (rng : S),
      runWorkers c add_noise nbBands gens bv_vec jobs simus rng ≠ .error .outOfFuel := by
  intro jobs
  induction jobs with
  | nil => intro simus rng h; simp [runWorkers] at h
  | cons job jobs ih =>
    intro simus rng
    unfold runWorkers
    split
    · rename_i e hs
      intro h'
      have he : e = .outOfFuel := by simpa using h'
      subst he
      exact simulator_ne_outOfFuel c add_noise nbBands gens bv_vec _ _ _ _ _ _ (by omega)
        (by omega) hs
    · exact ih _ _

/-- The step budget given to every worker is enough: a run never ends for
lack of fuel, it either completes or hits an out-of-range dereference. -/
theorem simulate_ne_outOfFuel {D BV S : Type} (c : Collaborators D BV S) (add_noise : Bool)
    (nbBands : Nat) (gens : List (NormalDistribution D)) (bv_vec : List BV)
    (T : Nat) (rng : S) :
    simulate c add_noise nbBands gens bv_vec T rng ≠ .error .outOfFuel := by
  unfold simulate
  split
  · intro h; simp at h
  · simp only
    split
    · rename_i e hs
      intro h'
      have he : e = .outOfFuel := by simpa using h'
      subst he
      exact runWorkers_ne_outOfFuel c add_noise nbBands gens bv_vec _ _ _ hs
    · intro h; simp at h

/-- The write-out loop of lines 331-332 writes one line per slot of `simus`. -/
theorem writeAll_length {D : Type} (shows : D → String) (simus : List (List D)) :
    (writeAll shows simus).length = simus.length := by
  simp [writeAll]

theorem filledUpTo_length {D BV S : Type} (c : Collaborators D BV S) (bv_vec : List BV)
    {m : Nat} (h : m ≤ bv_vec.length) : (filledUpTo c bv_vec m).length = bv_vec.length := by
  simp [filledUpTo]
  omega

theorem filledUpTo_set {D BV S : Type} (c : Collaborators D BV S) (bv_vec : List BV)
    {m : Nat} (h : m < bv_vec.length) :
    (filledUpTo c bv_vec m).set m (c.prosail (bv_vec.get ⟨m, h⟩)) =
      filledUpTo c bv_vec (m + 1) := by
  unfold filledUpTo
  have hl : ((bv_vec.take m).map c.prosail).length = m := by simp; omega
  rw [List.set_append_right _ _ (by omega), hl, Nat.sub_self]
  have hr : bv_vec.length - m = (bv_vec.length - (m + 1)) + 1 := by omega
  rw [hr, List.replicate_succ, List.set_cons_zero]
  have ht : (bv_vec.take (m + 1)).map c.prosail =
      (bv_vec.take m).map c.prosail ++ [c.prosail (bv_vec.get ⟨m, h⟩)] := by
    rw [List.take_succ, List.getElem?_eq_getElem h, List.map_append]
    rfl
  rw [ht, List.append_assoc]
  rfl

/-- A worker whose input and output iterators both stand at offset `a` and
whose end iterator stands at `e`, with `a ≤ e ≤ size`, fills the slots
`a .. e - 1` and stops. -/
theorem simulator_fill {D BV S : Type} (c : Collaborators D BV S) (nbBands : Nat)
    (gens : List (NormalDistribution D)) (bv_vec : List BV) (rng : S) (e : Nat)
    (he : e ≤ bv_vec.length) :
    ∀ (fuel a : Nat), a ≤ e → e - a < fuel →
      simulator c false nbBands gens bv_vec fuel (a : Int) (e : Int) (a : Int)
        (filledUpTo c bv_vec a) rng = .ok (filledUpTo c bv_vec e, rng) := by
  intro fuel
  induction fuel with
  | zero => intro a _ h; omega
  | succ fuel ih =>
    intro a hae hf
    unfold simulator
    by_cases hEq : (a : Int) = (e : Int)
    · rw [if_pos hEq]
      have : a = e := by exact_mod_cast hEq
      rw [this]
    · rw [if_neg hEq]
      have hlt : a < e := by
        have : a ≠ e := fun h => hEq (by rw [h])
        omega
      have hlen : a < bv_vec.length := by omega
      have hd : deref? bv_vec (a : Int) = some (bv_vec.get ⟨a, hlen⟩) := by
        unfold deref?
        rw [if_pos (Int.ofNat_nonneg a), Int.toNat_ofNat, List.getElem?_eq_getElem hlen]
        rfl
      have ha : assign? (filledUpTo c bv_vec a) (a : Int) (c.prosail (bv_vec.get ⟨a, hlen⟩)) =
          some ((filledUpTo c bv_vec a).set a (c.prosail (bv_vec.get ⟨a, hlen⟩))) := by
        unfold assign?
        rw [Int.toNat_ofNat, if_pos]
        exact ⟨Int.ofNat_nonneg a, by rw [filledUpTo_length c bv_vec (by omega)]; exact hlen⟩
      rw [hd]
      simp only [ha, noiseStep, Int.toNat_ofNat, Bool.false_eq_true, if_false]
      rw [filledUpTo_set c bv_vec hlen]
      have := ih (a + 1) (by omega) (by omega)
      rw [← this]
      push_cast
      rfl

/-! ## The partitioning loop with fewer threads than samples -/

theorem partitionLoop_eq (b r T : Nat) (hb : b < 2 ^ 63) (hr : r < 2 ^ 63) :
    ∀ (k t : Nat) (s o : Int), t + k ≤ T →
      partitionLoop b r T k t s o = (List.range k).map (loopJob b r T t s o) := by
  intro k
  induction k with
  | zero => intro t s o _; rfl
  | succ k ih =>
    intro t s o h
    rw [List.range_succ_eq_map, List.map_cons, List.map_map]
    unfold partitionLoop
    simp only [advance_of_lt _ hb]
    by_cases hl : t = T - 1
    · have hk : k = 0 := by omega
      subst hk
      simp [loopJob, hl, partitionLoop, advance, toDifference_sizeSub_one hr]
    · rw [if_neg hl, ih (t + 1) (s + b) (o + b) (by omega)]
      congr 1
      · simp [loopJob, hl]
      · apply List.map_congr_left
        intro i _
        simp only [loopJob, Function.comp, Job.mk.injEq]
        refine ⟨by push_cast; ring, ?_, by push_cast; ring⟩
        have : (t + 1 + i = T - 1) ↔ (t + (i + 1) = T - 1) := by omega
        simp only [this]
        push_cast
        ring

theorem runWorkers_partitionLoop {D BV S : Type} (c : Collaborators D BV S) (nbBands : Nat)
    (gens : List (NormalDistribution D)) (bv_vec : List BV) (rng : S) (b r T : Nat)
    (hb : b < 2 ^ 63) (hr : r < 2 ^ 63) (hN : T * b + r ≤ bv_vec.length) (hpos : 1 ≤ b + r) :
    ∀ (k t : Nat), t + (k + 1) = T →
      runWorkers c false nbBands gens bv_vec
        (partitionLoop b r T (k + 1) t ((t * b : Nat) : Int) ((t * b : Nat) : Int))
        (filledUpTo c bv_vec (t * b)) rng =
      .ok (filledUpTo c bv_vec (T * b + r - 1), rng) := by
  intro k
  induction k with
  | zero =>
    intro t ht
    have hl : t = T - 1 := by omega
    have hT : T * b = t * b + b := by rw [← ht]; ring
    have hend : advance (advance ((t * b : Nat) : Int) b) (sizeSub r 1) =
        ((T * b + r - 1 : Nat) : Int) := by
      rw [advance_of_lt _ hb]
      unfold advance
      rw [toDifference_sizeSub_one hr]
      omega
    unfold partitionLoop
    simp only [if_pos hl, hend, partitionLoop, runWorkers]
    rw [simulator_fill c nbBands gens bv_vec rng (T * b + r - 1) (by omega)
      (bv_vec.length + 1) (t * b) (by omega) (by omega)]
  | succ k ih =>
    intro t ht
    have hl : t ≠ T - 1 := by omega
    have hend : advance ((t * b : Nat) : Int) b = (((t + 1) * b : Nat) : Int) := by
      rw [advance_of_lt _ hb]
      push_cast
      ring
    have hle : (t + 1) * b ≤ T * b := Nat.mul_le_mul_right b (by omega)
    unfold partitionLoop
    simp only [if_neg hl, hend, runWorkers]
    rw [simulator_fill c nbBands gens bv_vec rng ((t + 1) * b) (by omega)
      (bv_vec.length + 1) (t * b) (by nlinarith) (by omega)]
    exact ih (t + 1) (by omega)

/-- With fewer threads than samples and no noise, the run ends normally with
all slots but the last one filled. -/
theorem simulate_fewer_threads {D BV S : Type} (c : Collaborators D BV S) (nbBands : Nat)
    (gens : List (NormalDistribution D)) (bv_vec : List BV) (rng : S) (T : Nat)
    (hT : 1 ≤ T) (hTN : T < bv_vec.length) (hN : bv_vec.length < 2 ^ 63) :
    simulate c false nbBands gens bv_vec T rng =
      .ok ((bv_vec.take (bv_vec.length - 1)).map c.prosail ++ [[]]) := by
  have hdiv : T * (bv_vec.length / T) + bv_vec.length % T = bv_vec.length :=
    Nat.div_add_mod _ _
  have hb : bv_vec.length / T < 2 ^ 63 :=
    lt_of_le_of_lt (Nat.div_le_self _ _) hN
  have hr : bv_vec.length % T < 2 ^ 63 :=
    lt_of_le_of_lt (Nat.mod_le _ _) hN
  have hbpos : 1 ≤ bv_vec.length / T := (Nat.one_le_div_iff (by omega)).2 (by omega)
  have hrun := runWorkers_partitionLoop c nbBands gens bv_vec rng (bv_vec.length / T)
    (bv_vec.length % T) T hb hr (by omega) (by omega) (T - 1) 0 (by omega)
  have hbs : blockSize bv_vec.length T = bv_vec.length / T := by
    unfold blockSize
    rw [if_neg (by omega)]
  have hfill0 : filledUpTo c bv_vec (0 * (bv_vec.length / T)) =
      List.replicate bv_vec.length [] := by
    simp [filledUpTo]
  have hfillN : filledUpTo c bv_vec (T * (bv_vec.length / T) + bv_vec.length % T - 1) =
      (bv_vec.take (bv_vec.length - 1)).map c.prosail ++ [[]] := by
    rw [hdiv]
    unfold filledUpTo
    have : bv_vec.length - (bv_vec.length - 1) = 1 := by omega
    rw [this]
    rfl
  have hk : T - 1 + 1 = T := by omega
  rw [hk, hfill0, hfillN] at hrun
  simp only [Nat.zero_mul, Nat.cast_zero] at hrun
  unfold simulate partition
  rw [if_neg (by omega)]
  simp only [hbs, hrun]

theorem partition_eq_blockJobs (N T : Nat) (hT : 1 ≤ T) (hTN : T < N) (hN : N < 2 ^ 63) :
    partition N T = (List.range T).map (blockJob N T) := by
  have hdiv : T * (N / T) + N % T = N := Nat.div_add_mod _ _
  have hb : N / T < 2 ^ 63 := lt_of_le_of_lt (Nat.div_le_self _ _) hN
  have hr : N % T < 2 ^ 63 := lt_of_le_of_lt (Nat.mod_le _ _) hN
  have hbs : blockSize N T = N / T := by
    unfold blockSize
    rw [if_neg (by omega)]
  unfold partition
  simp only [hbs]
  rw [partitionLoop_eq _ _ _ hb hr T 0 0 0 (by omega)]
  apply List.map_congr_left
  intro t ht
  have htT : t < T := List.mem_range.1 ht
  unfold loopJob blockJob
  generalize N / T = b at hdiv
  generalize N % T = r at hdiv
  by_cases hl : t = T - 1
  · have hT1 : T = t + 1 := by omega
    subst hT1
    simp only [Nat.zero_add, if_pos hl, Job.mk.injEq]
    refine ⟨by push_cast; ring, ?_, by push_cast; ring⟩
    have e2 : (((t + 1) * b + r : Nat) : Int) = (N : Int) := by rw [hdiv]
    push_cast at e2
    linarith
  · simp only [Nat.zero_add, if_neg hl, Job.mk.injEq]
    refine ⟨by push_cast; ring, by push_cast; ring, by push_cast; ring⟩

theorem blockJob_bounds (N T t : Nat) (hT : 1 ≤ T) (hTN : T < N) (ht : t < T) :
    (blockJob N T t).input_start = ((t * (N / T) : Nat) : Int) ∧
    (blockJob N T t).output_start = ((t * (N / T) : Nat) : Int) ∧
    (blockJob N T t).input_start < (blockJob N T t).input_end ∧
    (blockJob N T t).input_end ≤ (N : Int) - 1 ∧
    (t + 1 < T → (blockJob N T t).input_end = (((t + 1) * (N / T) : Nat) : Int)) ∧
    (t + 1 = T → (blockJob N T t).input_end = (N : Int) - 1) := by
  have hdiv : T * (N / T) + N % T = N := Nat.div_add_mod _ _
  have hbpos : 1 ≤ N / T := (Nat.one_le_div_iff (by omega)).2 (by omega)
  unfold blockJob
  generalize N / T = b at hdiv hbpos
  generalize N % T = r at hdiv
  by_cases hl : t = T - 1
  · have hT1 : T = t + 1 := by omega
    subst hT1
    have h2 : (t + 1) * b = t * b + b := by ring
    rw [if_pos hl]
    refine ⟨rfl, rfl, ?_, le_refl _, fun h => by omega, fun _ => rfl⟩
    show ((t * b : Nat) : Int) < (N : Int) - 1
    have h4 : 2 ≤ b + r := by
      rcases Nat.lt_or_ge b 2 with hb2 | hb2
      · have hb1 : b = 1 := by omega
        subst hb1
        omega
      · omega
    omega
  · have h1 : (t + 1) * b ≤ (T - 1) * b := Nat.mul_le_mul_right _ (by omega)
    have h2 : (T - 1) * b + b = T * b := by
      obtain ⟨T', rfl⟩ : ∃ T', T = T' + 1 := ⟨T - 1, by omega⟩
      simp only [Nat.add_sub_cancel]
      ring
    have h3 : (t + 1) * b = t * b + b := by ring
    rw [if_neg hl]
    refine ⟨rfl, rfl, ?_, ?_, fun _ => rfl, fun h => by omega⟩
    · show ((t * b : Nat) : Int) < (((t + 1) * b : Nat) : Int)
      omega
    · show (((t + 1) * b : Nat) : Int) ≤ (N : Int) - 1
      omega

theorem blockJob_cover (N T : Nat) (hT : 1 ≤ T) (hTN : T < N) (i : Int) :
    (∃ t, t < T ∧ (blockJob N T t).input_start ≤ i ∧ i < (blockJob N T t).input_end) ↔
      (0 ≤ i ∧ i < (N : Int) - 1) := by
  have hbpos : 1 ≤ N / T := (Nat.one_le_div_iff (by omega)).2 (by omega)
  constructor
  · rintro ⟨t, ht, h1, h2⟩
    obtain ⟨hs, _, _, he, _, _⟩ := blockJob_bounds N T t hT hTN ht
    rw [hs] at h1
    have : (0 : Int) ≤ ((t * (N / T) : Nat) : Int) := Int.ofNat_nonneg _
    omega
  · rintro ⟨h0, h1⟩
    obtain ⟨n, rfl⟩ : ∃ n : Nat, i = (n : Int) := ⟨i.toNat, (Int.toNat_of_nonneg h0).symm⟩
    have hlo : (N / T) * (n / (N / T)) ≤ n := Nat.mul_div_le _ _
    have hhi : n < (N / T) * (n / (N / T) + 1) := Nat.lt_mul_div_succ _ (by omega)
    by_cases hq : n / (N / T) + 1 < T
    · refine ⟨n / (N / T), by omega, ?_, ?_⟩
      · obtain ⟨hs, _, _, _, _, _⟩ := blockJob_bounds N T (n / (N / T)) hT hTN (by omega)
        rw [hs, Nat.mul_comm]
        exact_mod_cast hlo
      · obtain ⟨_, _, _, _, he, _⟩ := blockJob_bounds N T (n / (N / T)) hT hTN (by omega)
        rw [he hq, Nat.mul_comm]
        exact_mod_cast hhi
    · refine ⟨T - 1, by omega, ?_, ?_⟩
      · obtain ⟨hs, _, _, _, _, _⟩ := blockJob_bounds N T (T - 1) hT hTN (by omega)
        rw [hs]
        have hmono : (T - 1) * (N / T) ≤ (n / (N / T)) * (N / T) :=
          Nat.mul_le_mul_right _ (by omega)
        have : (T - 1) * (N / T) ≤ n := by
          rw [Nat.mul_comm (n / (N / T))] at hmono
          omega
        exact_mod_cast this
      · obtain ⟨_, _, _, _, _, he⟩ := blockJob_bounds N T (T - 1) hT hTN (by omega)
        rw [he (by omega)]
        exact h1

theorem blockJob_ordered (N T : Nat) (hT : 1 ≤ T) (hTN : T < N) (t1 t2 : Nat)
    (h12 : t1 < t2) (h2 : t2 < T) :
    (blockJob N T t1).input_end ≤ (blockJob N T t2).input_start := by
  obtain ⟨_, _, _, _, he, _⟩ := blockJob_bounds N T t1 hT hTN (by omega)
  obtain ⟨hs, _, _, _, _, _⟩ := blockJob_bounds N T t2 hT hTN h2
  rw [he (by omega), hs]
  have : (t1 + 1) * (N / T) ≤ t2 * (N / T) := Nat.mul_le_mul_right _ (by omega)
  exact_mod_cast this

/-- C10. For `1 ≤ T < N` (and `N` a vector size, below `2 ^ 63`) the jobs started
by the partitioning loop are, in thread order, the blocks `blockJob N T t`:
`[t * b, (t + 1) * b)` with `b = N / T` for `t < T - 1` and `[(T - 1) * b, N - 1)`
for the last thread, each with its output offset equal to its input start.
They are contiguous, pairwise disjoint, well formed and inside `[0, N)`; an
offset lies in one of them exactly when it lies in `[0, N - 1)`; no job writes
slot `N - 1`, and a run without noise ends with every slot below `N - 1`
holding the simulation of its sample and slot `N - 1` still default
constructed. -/
theorem partition_fewer_threads (N T : Nat) (hT : 1 ≤ T) (hTN : T < N) (hN : N < 2 ^ 63) :
    partition N T = (List.range T).map (blockJob N T) ∧
    (partition N T).Chain' (fun j1 j2 => j1.input_end = j2.input_start) ∧
    (partition N T).Pairwise (fun j1 j2 =>
      ∀ i : Int, ¬ ((j1.input_start ≤ i ∧ i < j1.input_end) ∧
        (j2.input_start ≤ i ∧ i < j2.input_end))) ∧
    (∀ j ∈ partition N T, 0 ≤ j.input_start ∧ j.input_start ≤ j.input_end ∧
      j.input_end ≤ (N : Int) ∧ j.output_start = j.input_start) ∧
    (∀ i : Int, (∃ j ∈ partition N T, j.input_start ≤ i ∧ i < j.input_end) ↔
      (0 ≤ i ∧ i < (N : Int) - 1)) ∧
    (∀ j ∈ partition N T, ¬ (j.output_start ≤ (N : Int) - 1 ∧
      (N : Int) - 1 < j.output_start + (j.input_end - j.input_start))) ∧
    (∀ (D BV S : Type) (c : Collaborators D BV S) (nbBands : Nat)
      (gens : List (NormalDistribution D)) (bv_vec : List BV) (rng : S),
      bv_vec.length = N →
      simulate c false nbBands gens bv_vec T rng =
        .ok ((bv_vec.take (N - 1)).map c.prosail ++ [[]])) := by
  have hjobs := partition_eq_blockJobs N T hT hTN hN
  have hmem : ∀ j ∈ partition N T, ∃ t, t < T ∧ j = blockJob N T t := by
    intro j hj
    rw [hjobs, List.mem_map] at hj
    obtain ⟨t, ht, rfl⟩ := hj
    exact ⟨t, List.mem_range.1 ht, rfl⟩
  refine ⟨hjobs, ?_, ?_, ?_, ?_, ?_, ?_⟩
  · rw [hjobs, List.chain'_map]
    obtain ⟨T', rfl⟩ : ∃ T', T = T' + 1 := ⟨T - 1, by omega⟩
    rw [List.chain'_range_succ]
    intro m hm
    obtain ⟨_, _, _, _, he, _⟩ := blockJob_bounds N (T' + 1) m hT hTN (by omega)
    obtain ⟨hs, _, _, _, _, _⟩ := blockJob_bounds N (T' + 1) (m + 1) hT hTN (by omega)
    rw [he (by omega), hs]
  · rw [hjobs, List.pairwise_map]
    refine List.Pairwise.imp_of_mem ?_ (List.pairwise_lt_range T)
    intro t1 t2 _ h2 h12 i hi
    have := blockJob_ordered N T hT hTN t1 t2 h12 (List.mem_range.1 h2)
    omega
  · intro j hj
    obtain ⟨t, ht, rfl⟩ := hmem j hj
    obtain ⟨hs, ho, hlt, he, _, _⟩ := blockJob_bounds N T t hT hTN ht
    have : (0 : Int) ≤ ((t * (N / T) : Nat) : Int) := Int.ofNat_nonneg _
    refine ⟨by omega, by omega, by omega, by rw [ho, hs]⟩
  · intro i
    rw [← blockJob_cover N T hT hTN i]
    constructor
    · rintro ⟨j, hj, h⟩
      obtain ⟨t, ht, rfl⟩ := hmem j hj
      exact ⟨t, ht, h⟩
    · rintro ⟨t, ht, h⟩
      refine ⟨blockJob N T t, ?_, h⟩
      rw [hjobs]
      exact List.mem_map.2 ⟨t, List.mem_range.2 ht, rfl⟩
  · intro j hj
    obtain ⟨t, ht, rfl⟩ := hmem j hj
    obtain ⟨hs, ho, hlt, he, _, _⟩ := blockJob_bounds N T t hT hTN ht
    omega
  · intro D BV S c nbBands gens bv_vec rng hlen
    subst hlen
    exact simulate_fewer_threads c nbBands gens bv_vec rng T hT hTN hN

/-- Instance of C10 at `N = 7`, `T = 3`: three jobs `[0,2)`, `[2,4)`, `[4,6)`. -/
theorem partition_fewer_threads_witness :
    ((1 : Nat) ≤ 3 ∧ (3 : Nat) < 7 ∧ (7 : Nat) < 2 ^ 63) ∧
    partition 7 3 = (List.range 3).map (blockJob 7 3) ∧
    (∀ i : Int, (∃ j ∈ partition 7 3, j.input_start ≤ i ∧ i < j.input_end) ↔
      (0 ≤ i ∧ i < ((7 : Nat) : Int) - 1)) :=
  ⟨by decide,
   (partition_fewer_threads 7 3 (by decide) (by decide) (by decide)).1,
   (partition_fewer_threads 7 3 (by decide) (by decide) (by decide)).2.2.2.2.1⟩

/-! ## Runs in which the partitioning loop loses or misplaces samples -/

theorem partition_2_1 :
    partition 2 1 = [{ input_start := 0, input_end := 1, output_start := 0 }] := by
  decide

theorem partition_1_2 :
    partition 1 2 = [{ input_start := 0, input_end := 1, output_start := 0 },
      { input_start := 1, input_end := 2, output_start := 1 }] := by
  decide

theorem partition_1_1 :
    partition 1 1 = [{ input_start := 0, input_end := 0, output_start := 0 }] := by
  decide

theorem partition_0_1 :
    partition 0 1 = [{ input_start := 0, input_end := -1, output_start := 0 }] := by
  decide

theorem simulate_two_one {D BV S : Type} (c : Collaborators D BV S) (s0 s1 : BV)
    (nbBands : Nat) (gens : List (NormalDistribution D)) (rng : S) :
    simulate c false nbBands gens [s0, s1] 1 rng = .ok [c.prosail s0, []] := by
  unfold simulate
  rw [if_neg (by decide)]
  have hl : [s0, s1].length = 2 := rfl
  simp only [hl]
  rw [partition_2_1]
  unfold runWorkers
  simp only [hl]
  rw [simulator_step c nbBands gens [s0, s1] 2 0 1 0 (List.replicate 2 ([] : List D)) rng s0
    (by decide) rfl ⟨by decide, by simp⟩]
  rw [simulator_done c false nbBands gens [s0, s1] 1 (0 + 1) 1 (0 + 1) _ rng (by decide)]
  rfl

theorem simulate_one_two {D BV S : Type} (c : Collaborators D BV S) (s0 : BV)
    (nbBands : Nat) (gens : List (NormalDistribution D)) (rng : S) :
    simulate c false nbBands gens [s0] 2 rng = .error .outOfBounds := by
  unfold simulate
  rw [if_neg (by decide)]
  have hl : [s0].length = 1 := rfl
  simp only [hl]
  rw [partition_1_2]
  unfold runWorkers
  simp only [hl]
  rw [simulator_step c nbBands gens [s0] 1 0 1 0 (List.replicate 1 ([] : List D)) rng s0
    (by decide) rfl ⟨by decide, by simp⟩]
  rw [simulator_done c false nbBands gens [s0] 0 (0 + 1) 1 (0 + 1) _ rng (by decide)]
  simp only []
  unfold runWorkers
  simp only [hl]
  rw [simulator_fault c false nbBands gens [s0] 1 1 2 1 _ rng (by decide) rfl]

theorem simulate_one_one {D BV S : Type} (c : Collaborators D BV S) (s0 : BV)
    (nbBands : Nat) (gens : List (NormalDistribution D)) (rng : S) :
    simulate c false nbBands gens [s0] 1 rng = .ok [[]] := by
  unfold simulate
  rw [if_neg (by decide)]
  have hl : [s0].length = 1 := rfl
  simp only [hl]
  rw [partition_1_1]
  unfold runWorkers
  simp only [hl]
  rw [simulator_done c false nbBands gens [s0] 1 0 0 0 _ rng (by decide)]
  rfl

theorem simulate_zero_one {D BV S : Type} (c : Collaborators D BV S)
    (nbBands : Nat) (gens : List (NormalDistribution D)) (rng : S) :
    simulate c false nbBands gens ([] : List BV) 1 rng = .error .outOfBounds := by
  unfold simulate
  rw [if_neg (by decide)]
  have hl : ([] : List BV).length = 0 := rfl
  simp only [hl]
  rw [partition_0_1]
  unfold runWorkers
  simp only [hl]
  rw [simulator_fault c false nbBands gens ([] : List BV) 0 0 (-1) 0 _ rng (by decide) rfl]

theorem partitionLoop_succ (b r T k t : Nat) (s o : Int) :
    partitionLoop b r T (k + 1) t s o =
      { input_start := s,
        input_end := if t = T - 1 then advance (advance s b) (sizeSub r 1) else advance s b,
        output_start := o } ::
      partitionLoop b r T k (t + 1)
        (if t = T - 1 then advance (advance s b) (sizeSub r 1) else advance s b)
        (advance o b) := by
  rw [partitionLoop]

/-- With at least two threads and no more samples than threads, the second
worker starts at offset `N`, past the last sample, with a non-empty range:
every such run dereferences outside the sample vector. -/
theorem simulate_more_threads_fault {D BV S : Type} (c : Collaborators D BV S) (nbBands : Nat)
    (gens : List (NormalDistribution D)) (bv_vec : List BV) (rng : S) (T : Nat)
    (hN : 1 ≤ bv_vec.length) (hT : 2 ≤ T) (hTN : bv_vec.length ≤ T)
    (hsz : bv_vec.length < 2 ^ 63) :
    simulate c false nbBands gens bv_vec T rng = .error .outOfBounds := by
  obtain ⟨k, rfl⟩ : ∃ k, T = k + 2 := ⟨T - 2, by omega⟩
  have hbs : blockSize bv_vec.length (k + 2) = bv_vec.length := by
    unfold blockSize
    rw [if_pos hTN]
  have hr : bv_vec.length % (k + 2) < 2 ^ 63 := lt_of_le_of_lt (Nat.mod_le _ _) hsz
  have hfill0 : filledUpTo c bv_vec 0 = List.replicate bv_vec.length [] := by
    simp [filledUpTo]
  have h0 := simulator_fill c nbBands gens bv_vec rng bv_vec.length (Nat.le_refl _)
    (bv_vec.length + 1) 0 (Nat.zero_le _) (by omega)
  rw [hfill0] at h0
  have hderef : deref? bv_vec (bv_vec.length : Int) = none := by
    unfold deref?
    rw [if_pos (Int.ofNat_nonneg _), Int.toNat_ofNat]
    exact List.getElem?_eq_none (Nat.le_refl _)
  have hne0 : ¬ (0 = k + 2 - 1) := by omega
  have hjobs : partitionLoop bv_vec.length (bv_vec.length % (k + 2)) (k + 2) (k + 2) 0 0 0 =
      { input_start := 0, input_end := (bv_vec.length : Int), output_start := 0 } ::
      { input_start := (bv_vec.length : Int),
        input_end := if 1 = k + 2 - 1 then
            advance ((bv_vec.length : Int) + (bv_vec.length : Int))
              (sizeSub (bv_vec.length % (k + 2)) 1)
          else (bv_vec.length : Int) + (bv_vec.length : Int),
        output_start := (bv_vec.length : Int) } ::
      partitionLoop bv_vec.length (bv_vec.length % (k + 2)) (k + 2) k 2
        (if 1 = k + 2 - 1 then
            advance ((bv_vec.length : Int) + (bv_vec.length : Int))
              (sizeSub (bv_vec.length % (k + 2)) 1)
          else (bv_vec.length : Int) + (bv_vec.length : Int))
        ((bv_vec.length : Int) + (bv_vec.length : Int)) := by
    rw [partitionLoop_succ, partitionLoop_succ]
    simp only [if_neg hne0, advance_of_lt _ hsz, Int.zero_add, Nat.zero_add]
  have hend : (bv_vec.length : Int) ≠ (if 1 = k + 2 - 1 then
            advance ((bv_vec.length : Int) + (bv_vec.length : Int))
              (sizeSub (bv_vec.length % (k + 2)) 1)
          else (bv_vec.length : Int) + (bv_vec.length : Int)) := by
    by_cases hk : 1 = k + 2 - 1
    · rw [if_pos hk]
      unfold advance
      rw [toDifference_sizeSub_one hr]
      have hk0 : k = 0 := by omega
      subst hk0
      have : bv_vec.length = 1 ∨ bv_vec.length = 2 := by omega
      rcases this with h | h <;> rw [h] <;> omega
    · rw [if_neg hk]
      omega
  unfold simulate partition
  rw [if_neg (by omega)]
  simp only [hbs]
  rw [hjobs]
  unfold runWorkers
  simp only []
  rw [show ((0 : Nat) : Int) = 0 from rfl] at h0
  rw [h0]
  simp only []
  unfold runWorkers
  simp only []
  rw [simulator_fault c false nbBands gens bv_vec bv_vec.length _ _ _ _ _ hend hderef]

theorem runWorkers_no_sample {D BV S : Type} (c : Collaborators D BV S) (add_noise : Bool)
    (nbBands : Nat) (gens : List (NormalDistribution D)) (rng : S) (T : Nat) :
    ∀ (k t : Nat), t + (k + 1) = T →
      runWorkers c add_noise nbBands gens ([] : List BV) (partitionLoop 0 0 T (k + 1) t 0 0)
        [] rng = .error .outOfBounds := by
  have hadv : advance 0 0 = 0 := by decide
  have hlast : advance (advance 0 0) (sizeSub 0 1) = -1 := by decide
  intro k
  induction k with
  | zero =>
    intro t ht
    rw [partitionLoop_succ, if_pos (by omega), hlast]
    unfold runWorkers
    simp only []
    rw [simulator_fault c add_noise nbBands gens ([] : List BV) _ 0 (-1) 0 _ rng (by decide) rfl]
  | succ k ih =>
    intro t ht
    rw [partitionLoop_succ, if_neg (by omega), hadv]
    unfold runWorkers
    simp only []
    rw [simulator_done c add_noise nbBands gens ([] : List BV) _ 0 0 0 _ rng rfl]
    exact ih (t + 1) (by omega)

/-- Without samples every run faults, whatever the number of threads: the
range of the last thread is `[0, -1)`. -/
theorem simulate_no_sample_fault {D BV S : Type} (c : Collaborators D BV S) (add_noise : Bool)
    (nbBands : Nat) (gens : List (NormalDistribution D)) (rng : S) (T : Nat) (hT : 1 ≤ T) :
    simulate c add_noise nbBands gens ([] : List BV) T rng = .error .outOfBounds := by
  obtain ⟨k, rfl⟩ : ∃ k, T = k + 1 := ⟨T - 1, by omega⟩
  have hbs : blockSize 0 (k + 1) = 0 := by
    unfold blockSize
    rw [if_pos (Nat.zero_le _)]
  unfold simulate partition
  rw [if_neg (by omega)]
  simp only [List.length_nil, hbs, Nat.zero_mod, List.replicate_zero]
  rw [runWorkers_no_sample c add_noise nbBands gens rng (k + 1) k 0 (by omega)]

/-- C1 at `N = 2`, `T = 1`: the only job is `[0, 1)`, so offset `1` of `[0, 2)`
lies in no job and the union of the ranges is not `[0, 2)`. -/
theorem partition_two_samples_one_thread :
    partition 2 1 = [{ input_start := 0, input_end := 1, output_start := 0 }] ∧
    ¬ ∃ j ∈ partition 2 1, j.input_start ≤ 1 ∧ 1 < j.input_end := by
  decide

/-- C2 at two samples and one thread, without noise: slot `0` holds the
simulation of sample `0`, slot `1` is still the default constructed (empty)
vector and not the simulation of sample `1`. -/
theorem simulate_two_samples_one_thread :
    simulate natCollaborators false 3 [] [10, 20] 1 0 = .ok [[10, 10, 10], []] ∧
    natCollaborators.prosail 20 = [20, 20, 20] ∧
    (∀ (D BV S : Type) (c : Collaborators D BV S) (s0 s1 : BV) (nbBands : Nat)
      (gens : List (NormalDistribution D)) (rng : S),
      simulate c false nbBands gens [s0, s1] 1 rng = .ok [c.prosail s0, []]) :=
  ⟨simulate_two_one natCollaborators 10 20 3 [] 0, rfl,
    fun _ _ _ c s0 s1 nbBands gens rng => simulate_two_one c s0 s1 nbBands gens rng⟩

/-- C3 at `N = 1`, `T = 2`: the second job is `[1, 2)`, outside `[0, 1)`; its
worker dereferences past the end of both vectors, while the run with one
thread ends normally (with its only slot unwritten). -/
theorem simulate_one_sample_two_threads :
    partition 1 2 = [{ input_start := 0, input_end := 1, output_start := 0 },
      { input_start := 1, input_end := 2, output_start := 1 }] ∧
    (∀ (D BV S : Type) (c : Collaborators D BV S) (s0 : BV) (nbBands : Nat)
      (gens : List (NormalDistribution D)) (rng : S),
      simulate c false nbBands gens [s0] 2 rng = .error .outOfBounds ∧
      simulate c false nbBands gens [s0] 1 rng = .ok [[]]) :=
  ⟨partition_1_2, fun _ _ _ c s0 nbBands gens rng =>
    ⟨simulate_one_two c s0 nbBands gens rng, simulate_one_one c s0 nbBands gens rng⟩⟩

/-- C4 at `N = 0`, `T = 1`: the job is `[0, -1)`, its start differs from its
end, so the worker loop is entered and dereferences an empty vector. -/
theorem simulate_no_sample_one_thread :
    partition 0 1 = [{ input_start := 0, input_end := -1, output_start := 0 }] ∧
    (∀ (D BV S : Type) (c : Collaborators D BV S) (nbBands : Nat)
      (gens : List (NormalDistribution D)) (rng : S),
      simulate c false nbBands gens ([] : List BV) 1 rng = .error .outOfBounds) :=
  ⟨partition_0_1, fun _ _ _ c nbBands gens rng => simulate_zero_one c nbBands gens rng⟩

end ProSail
